import Mathlib

/-!
Verification of the in-memory text-buffer engine of the `texc` terminal
editor (src/main.c).  Rows, the coordinate mapper, the syntax classifier,
the document mutations, and the incremental search engine are shallowly
embedded as executable Lean functions; byte buffers become `List Char`,
the NUL terminator of a C string is modelled by `rGet` returning `'\x00'`
past the end of the list, and machine ints that stay small become `Nat`
(or `Int` where a negative value is observable).
-/

-- ======================================================================= --
--  Basic constants and character classes
-- ======================================================================= --

/-- `TAB_STOP` from main.c. -/
def TAB_STOP : Nat := 8

/-- C `isspace` for the ASCII range (C locale). -/
def isspace (c : Char) : Bool :=
  c == ' ' || c == '\t' || c == '\n' || c == '\x0b' || c == '\x0c' || c == '\r'

/-- C `isdigit`. -/
def isdigit (c : Char) : Bool :=
  '0' ≤ c && c ≤ '9'

/-- `is_separator` from main.c: whitespace, NUL, or one of the fixed
punctuation set (comma, dot, parens, arithmetic and comparison operators,
brackets, semicolon — the `strchr` call). -/
def is_separator (c : Char) : Bool :=
  isspace c || c == '\x00' || ",.()+-/*=~%<>[];".toList.contains c

/-- Read a byte of a NUL-terminated C string: `render[rlen]` is `'\0'`.
Indices past the buffer never occur on reachable paths. -/
def rGet (r : List Char) (i : Nat) : Char :=
  r.getD i '\x00'

-- ======================================================================= --
--  Coordinate mapper (editor_row_cx2rx / editor_row_rx2cx)
-- ======================================================================= --

/-- One step of the render-column walk: a tab advances to the next multiple
of `TAB_STOP` (`rx += (TAB_STOP-1) - rx % TAB_STOP; rx++`), anything else
advances by one. -/
def rxStep (rx : Nat) (c : Char) : Nat :=
  if c = '\t' then rx + (TAB_STOP - rx % TAB_STOP) else rx + 1

/-- The highlight classes of main.c's `editor_highlight`. -/
inductive Hl where
  | HL_NORMAL
  | HL_STRING
  | HL_NUMBER
  | HL_COMMENT
  | HL_MLCOMMENT
  | HL_KEYWORD1
  | HL_KEYWORD2
  | HL_MATCH
deriving DecidableEq, Repr, Inhabited

/-- An editor row (`erow` in main.c).  `len` and `rlen` are the lengths of
`c` and `render`; `idx` is the position in the document list. -/
structure erow where
  c : List Char
  render : List Char
  hl : List Hl
  hl_open_comment : Bool
deriving DecidableEq, Repr, Inhabited

/-- `editor_row_cx2rx`: walk the first `cx` raw characters, expanding tabs. -/
def editor_row_cx2rx (row : erow) (cx : Nat) : Nat :=
  (row.c.take cx).foldl rxStep 0

/-- The loop of `editor_row_rx2cx`: walk raw characters accumulating the
render column `cur_rx`; return the first raw index whose cumulative render
column exceeds the target `rx`, else the raw length. -/
def rx2cxAux : List Char → Nat → Nat → Nat → Nat
  | [], _, _, cx => cx
  | c :: cs, cur_rx, rx, cx =>
    let cur' := rxStep cur_rx c
    if rx < cur' then cx else rx2cxAux cs cur' rx (cx + 1)

/-- `editor_row_rx2cx` from main.c. -/
def editor_row_rx2cx (row : erow) (rx : Nat) : Nat :=
  rx2cxAux row.c 0 rx 0

-- ======================================================================= --
--  Syntax definition data (esyn, HLDB) and the classifier scan
-- ======================================================================= --

/-- The syntax-definition record `esyn` of main.c.  A NULL comment marker
and an empty one behave identically in the C code (both give length 0),
so markers are plain lists.  `flags` keeps the C bitmask:
bit 0 = HL_SYN_NUMBERS, bit 1 = HL_SYN_STRINGS. -/
structure esyn where
  keywords : List (List Char)
  scs : List Char
  mcs : List Char
  mce : List Char
  flags : Nat
deriving DecidableEq, Repr, Inhabited

/-- `C_HL_KEY` from main.c: the C keyword list; a trailing bar marks the
secondary keyword class. -/
def C_HL_KEY : List (List Char) :=
  ["switch", "if", "while", "for", "break", "continue", "return", "else",
   "struct", "union", "typedef", "static", "enum", "class", "case",
   "int|", "long|", "double|", "float|", "char|", "unsigned|", "signed|",
   "void|"].map String.toList

/-- The single `HLDB` entry for C files (flags = HL_SYN_NUMBERS ||| HL_SYN_STRINGS = 3). -/
def C_SYN : esyn :=
  { keywords := C_HL_KEY
    scs := "//".toList
    mcs := "/*".toList
    mce := "*/".toList
    flags := 3 }

/-- Equality test of `strncmp(&r[i], kw, kw.length) == 0` on the
NUL-terminated buffer `r`: every byte of `kw` must match the buffer
(`rGet` yields the terminating NUL past the end, which no marker or
keyword byte equals, so running off the end fails the comparison exactly
as `strncmp` does). -/
def strncmpEq (r : List Char) (i : Nat) : List Char → Bool
  | [] => true
  | k :: ks => (rGet r i == k) && strncmpEq r (i + 1) ks

/-- The keyword `for` loop of `editor_update_syntax`: try each entry in
order; an entry ending in a bar is the secondary class with the bar
stripped from the compared length; a hit needs the prefix match plus a
separator right after the matched span.  Returns the matched length and
class flag of the first hit. -/
def kwScan (r : List Char) (i : Nat) : List (List Char) → Option (Nat × Bool)
  | [] => none
  | kw :: rest =>
    let kw2 := kw.getLastD '\x00' == '|'
    let kweff := if kw2 then kw.dropLast else kw
    if strncmpEq r i kweff && is_separator (rGet r (i + kweff.length)) then
      some (kweff.length, kw2)
    else kwScan r i rest

/-- The `while (i < row->rlen)` scan of `editor_update_syntax`, as a
fuel-indexed structural recursion.  The loop measure
`2*(rlen - i) + prev_sep` strictly decreases at every iteration (every
branch either consumes at least one byte or, in the zero-length-keyword
corner, turns `prev_sep` off), so the initial fuel `2*rlen + 2` is never
exhausted; the fuel-0 fallback returns the highlight array exactly as the
initial `memset(hl, HL_NORMAL, rlen)` left the unscanned positions.
`acc` is the reversed list of highlight bytes written so far
(`acc.length = i` throughout), so `acc.headD HL_NORMAL` is the C
`prev_hl = i > 0 ? hl[i-1] : HL_NORMAL`. -/
def synScan (syn : esyn) (r : List Char) :
    Nat → Nat → Bool → Option Char → Bool → List Hl → List Hl × Bool
  | 0, i, _, _, in_comment, acc =>
    (acc.reverse ++ List.replicate (r.length - i) Hl.HL_NORMAL, in_comment)
  | fuel + 1, i, prev_sep, in_string, in_comment, acc =>
    if r.length ≤ i then
      (acc.reverse ++ List.replicate (r.length - i) Hl.HL_NORMAL, in_comment)
    else
      if syn.scs.length != 0 && in_string == none && !in_comment &&
         strncmpEq r i syn.scs then
        -- single-line comment: the rest of the row, then break
        (acc.reverse ++ List.replicate (r.length - i) Hl.HL_COMMENT, in_comment)
      else if syn.mcs.length != 0 && syn.mce.length != 0 && in_string == none &&
              in_comment then
        if strncmpEq r i syn.mce then
          synScan syn r fuel (i + syn.mce.length) true in_string false
            (List.replicate syn.mce.length Hl.HL_MLCOMMENT ++ acc)
        else
          synScan syn r fuel (i + 1) prev_sep in_string in_comment
            (Hl.HL_MLCOMMENT :: acc)
      else if syn.mcs.length != 0 && syn.mce.length != 0 && in_string == none &&
              strncmpEq r i syn.mcs then
        synScan syn r fuel (i + syn.mcs.length) prev_sep in_string true
          (List.replicate syn.mcs.length Hl.HL_MLCOMMENT ++ acc)
      else if syn.flags.testBit 1 && !(in_string == none) then
        if rGet r i == '\\' && i + 1 < r.length then
          synScan syn r fuel (i + 2) prev_sep in_string in_comment
            (Hl.HL_STRING :: Hl.HL_STRING :: acc)
        else
          synScan syn r fuel (i + 1) true
            (if some (rGet r i) == in_string then none else in_string) in_comment
            (Hl.HL_STRING :: acc)
      else if syn.flags.testBit 1 && (rGet r i == '"' || rGet r i == '\'') then
        synScan syn r fuel (i + 1) prev_sep (some (rGet r i)) in_comment
          (Hl.HL_STRING :: acc)
      else if syn.flags.testBit 0 &&
              ((isdigit (rGet r i) &&
                 (prev_sep || acc.headD Hl.HL_NORMAL == Hl.HL_NUMBER)) ||
               (rGet r i == '.' && acc.headD Hl.HL_NORMAL == Hl.HL_NUMBER)) then
        synScan syn r fuel (i + 1) false in_string in_comment
          (Hl.HL_NUMBER :: acc)
      else if prev_sep then
        match kwScan r i syn.keywords with
        | some (klen, kw2) =>
          synScan syn r fuel (i + klen) false in_string in_comment
            (List.replicate klen (if kw2 then Hl.HL_KEYWORD2 else Hl.HL_KEYWORD1) ++ acc)
        | none =>
          synScan syn r fuel (i + 1) (is_separator (rGet r i)) in_string in_comment
            (Hl.HL_NORMAL :: acc)
      else
        synScan syn r fuel (i + 1) (is_separator (rGet r i)) in_string in_comment
          (Hl.HL_NORMAL :: acc)

/-- The per-row classification of `editor_update_syntax` under an active
syntax definition: scan the render text from position 0 with
`prev_sep = 1`, `in_string = 0`, `in_comment` from the previous row's
`hl_open_comment`; yields the highlight array and the row's new
`hl_open_comment`. -/
def classifyRow (syn : esyn) (r : List Char) (in_comment0 : Bool) : List Hl × Bool :=
  synScan syn r (2 * r.length + 2) 0 true none in_comment0 []

-- ======================================================================= --
--  Document-level syntax update (editor_update_syntax) and row update
-- ======================================================================= --

/-- List insertion at an index, as performed by the `memmove` in
`editor_insert_row` (callers guarantee `n ≤ l.length`). -/
def insertAt : List α → Nat → α → List α
  | l, 0, x => x :: l
  | [], _ + 1, x => [x]
  | c :: t, n + 1, x => c :: insertAt t n x

/-- List removal at an index, as performed by the `memmove` in
`editor_del_row` (callers guarantee `n < l.length`). -/
def eraseAt : List α → Nat → List α
  | [], _ => []
  | _ :: t, 0 => t
  | c :: t, n + 1 => c :: eraseAt t n

/-- The `in_comment` seed of `editor_update_syntax` on row `i`:
`row->idx > 0 && ec.row[row->idx - 1].hl_open_comment`. -/
def synInc (rows : List erow) (i : Nat) : Bool :=
  decide (0 < i) && (rows.getD (i - 1) default).hl_open_comment

/-- Store the classification of row `i` (new highlight array and new
`hl_open_comment`) back into the document. -/
def synRowUpdate (s : esyn) (rows : List erow) (i : Nat) : List erow :=
  rows.set i
    { rows.getD i default with
      hl := (classifyRow s (rows.getD i default).render (synInc rows i)).1
      hl_open_comment := (classifyRow s (rows.getD i default).render (synInc rows i)).2 }

/-- `changed`: did row `i`'s `hl_open_comment` flip under re-classification? -/
def synChanged (s : esyn) (rows : List erow) (i : Nat) : Bool :=
  (rows.getD i default).hl_open_comment !=
    (classifyRow s (rows.getD i default).render (synInc rows i)).2

/-- The `editor_update_syntax` cascade under an active syntax definition:
classify row `i`, store the result, and when the trailing flag changed and
`i + 1 < num_rows` recurse on the next row.  `num_rows` is passed
explicitly because `editor_insert_row` runs the update while
`ec.num_rows` still holds the pre-insert count.  The recursion depth is
bounded by `num_rows - i - 1`, so `fuel = num_rows` is never exhausted. -/
def updSynAux (s : esyn) (num_rows : Nat) : Nat → List erow → Nat → List erow
  | 0, rows, i => synRowUpdate s rows i
  | fuel + 1, rows, i =>
    if synChanged s rows i && decide (i + 1 < num_rows) then
      updSynAux s num_rows fuel (synRowUpdate s rows i) (i + 1)
    else synRowUpdate s rows i

/-- With no active syntax, `editor_update_syntax` just reallocates `hl` to
all `HL_NORMAL` and returns (before the cascade check). -/
def synRowNormal (rows : List erow) (i : Nat) : List erow :=
  rows.set i
    { rows.getD i default with
      hl := List.replicate (rows.getD i default).render.length Hl.HL_NORMAL }

/-- `editor_update_syntax` at the document level. -/
def editor_update_syn (syn : Option esyn) (num_rows : Nat)
    (rows : List erow) (i : Nat) : List erow :=
  match syn with
  | none => synRowNormal rows i
  | some s => updSynAux s num_rows num_rows rows i

/-- Tab expansion of `editor_update_row`: a tab becomes one space followed
by spaces until the render index is a multiple of `TAB_STOP`; `idx` is the
current render index. -/
def renderAux : List Char → Nat → List Char
  | [], _ => []
  | c :: cs, idx =>
    if c = '\t' then
      let pad := TAB_STOP - idx % TAB_STOP
      List.replicate pad ' ' ++ renderAux cs (idx + pad)
    else c :: renderAux cs (idx + 1)

/-- The render text derived from a row's raw content. -/
def render_of (raw : List Char) : List Char :=
  renderAux raw 0

/-- `editor_update_row` on row `i`: rebuild `render` (and hence `rlen`)
from the raw content, then run `editor_update_syntax` on the row. -/
def editor_update_row (syn : Option esyn) (num_rows : Nat)
    (rows : List erow) (i : Nat) : List erow :=
  let row := rows.getD i default
  editor_update_syn syn num_rows (rows.set i { row with render := render_of row.c }) i

-- ======================================================================= --
--  Editor state and document mutations
-- ======================================================================= --

/-- The slice of main.c's global `editor_config` that the buffer engine
reads and writes.  `num_rows` is `row.length`; the active syntax pointer
`ec.syntax` becomes the `syn` field (`none` = NULL, and in the program the
only other value is `C_SYN`). -/
structure editor_config where
  cursor_x : Nat
  cursor_y : Nat
  row : List erow
  dirty : Nat
  syn : Option esyn
deriving DecidableEq, Repr, Inhabited

/-- `editor_insert_row`: no-op unless `0 ≤ at ≤ num_rows`; insert a fresh
row (render, hl empty, `hl_open_comment = 0`), run `editor_update_row` on
it while `num_rows` still holds the old count, then bump `num_rows` and
`dirty`. -/
def editor_insert_row (ec : editor_config) (at_ : Int) (s : List Char) :
    editor_config :=
  if at_ < 0 || at_ > (ec.row.length : Int) then ec
  else
    let a := at_.toNat
    let rows1 := insertAt ec.row a { c := s, render := [], hl := [], hl_open_comment := false }
    { ec with row := editor_update_row ec.syn ec.row.length rows1 a
              dirty := ec.dirty + 1 }

/-- `editor_del_row`: no-op unless `0 ≤ at < num_rows`; remove the row and
bump `dirty` (no re-derivation of the remaining rows). -/
def editor_del_row (ec : editor_config) (at_ : Int) : editor_config :=
  if at_ < 0 || at_ ≥ (ec.row.length : Int) then ec
  else { ec with row := eraseAt ec.row at_.toNat, dirty := ec.dirty + 1 }

/-- The raw-buffer effect of `editor_row_insert_char`: an out-of-range
`at` (negative or greater than `len`) is replaced by `len`, then the byte
is spliced in. -/
def rowInsertCharRaw (s : List Char) (at_ : Int) (ch : Char) : List Char :=
  let a := if at_ < 0 || at_ > (s.length : Int) then s.length else at_.toNat
  s.take a ++ ch :: s.drop a

/-- The spec's reading of the same operation, modelled from the sentence
"inserts one character at a clamped offset (`at` clamped to `[0, row.len]`)":
clamping maps a negative `at` to 0 and an oversized one to `len`. -/
def rowInsertCharClampSpec (s : List Char) (at_ : Int) (ch : Char) : List Char :=
  let a := (max 0 (min at_ (s.length : Int))).toNat
  s.take a ++ ch :: s.drop a

/-- `editor_row_insert_char` on row `i` of the document: splice the byte
into the raw buffer, re-derive the row, bump `dirty`. -/
def editor_row_insert_char (ec : editor_config) (i : Nat) (at_ : Int)
    (ch : Char) : editor_config :=
  let row := ec.row.getD i default
  let row' := { row with c := rowInsertCharRaw row.c at_ ch }
  { ec with row := editor_update_row ec.syn ec.row.length (ec.row.set i row') i
            dirty := ec.dirty + 1 }

/-- `editor_row_del_char` on row `i`: no-op unless `0 ≤ at < len`; remove
the byte, re-derive the row, bump `dirty`. -/
def editor_row_del_char (ec : editor_config) (i : Nat) (at_ : Int) :
    editor_config :=
  let row := ec.row.getD i default
  if at_ < 0 || at_ ≥ (row.c.length : Int) then ec
  else
    let a := at_.toNat
    let row' := { row with c := row.c.take a ++ row.c.drop (a + 1) }
    { ec with row := editor_update_row ec.syn ec.row.length (ec.row.set i row') i
              dirty := ec.dirty + 1 }

/-- `editor_row_append_str` on row `i`: append raw text, re-derive the row,
bump `dirty`. -/
def editor_row_append_str (ec : editor_config) (i : Nat) (s : List Char) :
    editor_config :=
  let row := ec.row.getD i default
  let row' := { row with c := row.c ++ s }
  { ec with row := editor_update_row ec.syn ec.row.length (ec.row.set i row') i
            dirty := ec.dirty + 1 }

/-- `editor_insert_char`: when the cursor sits on the line one past the
last row, first append an empty row, then insert at the cursor column and
advance the cursor. -/
def editor_insert_char (ec : editor_config) (ch : Char) : editor_config :=
  let ec1 := if ec.cursor_y == ec.row.length
             then editor_insert_row ec (ec.row.length : Int) [] else ec
  let ec2 := editor_row_insert_char ec1 ec.cursor_y (ec.cursor_x : Int) ch
  { ec2 with cursor_x := ec2.cursor_x + 1 }

/-- `editor_insert_newline`: at column 0 insert an empty row above;
otherwise insert the suffix of the current row below (while `num_rows` is
already bumped), truncate the current row to the prefix (`row->len =
ec.cursor_x`; unreachable when `cursor_x > len`, modelled by `take`), and
re-derive it.  Finally move the cursor to the start of the next row. -/
def editor_insert_newline (ec : editor_config) : editor_config :=
  if ec.cursor_x == 0 then
    let ec1 := editor_insert_row ec (ec.cursor_y : Int) []
    { ec1 with cursor_y := ec.cursor_y + 1, cursor_x := 0 }
  else
    let row := ec.row.getD ec.cursor_y default
    let ec1 := editor_insert_row ec ((ec.cursor_y : Int) + 1) (row.c.drop ec.cursor_x)
    let row1 := ec1.row.getD ec.cursor_y default
    let row1' := { row1 with c := row1.c.take ec.cursor_x }
    let rows := editor_update_row ec1.syn ec1.row.length
                  (ec1.row.set ec.cursor_y row1') ec.cursor_y
    { ec1 with row := rows, cursor_y := ec.cursor_y + 1, cursor_x := 0 }

/-- `editor_del_char`: backspace semantics — within a line delete the byte
left of the cursor; at column 0 merge the line into its predecessor
(cursor lands at the predecessor's old length) and delete the row. -/
def editor_del_char (ec : editor_config) : editor_config :=
  if ec.cursor_y == ec.row.length then ec
  else if ec.cursor_x == 0 && ec.cursor_y == 0 then ec
  else if 0 < ec.cursor_x then
    let ec1 := editor_row_del_char ec ec.cursor_y ((ec.cursor_x : Int) - 1)
    { ec1 with cursor_x := ec.cursor_x - 1 }
  else
    let row := ec.row.getD ec.cursor_y default
    let prevLen := (ec.row.getD (ec.cursor_y - 1) default).c.length
    let ec1 := editor_row_append_str ec (ec.cursor_y - 1) row.c
    let ec2 := editor_del_row ec1 (ec.cursor_y : Int)
    { ec2 with cursor_x := prevLen, cursor_y := ec.cursor_y - 1 }

/-- `editor_open` (buffer side): append one row per input line, then clear
`dirty`. -/
def editor_open (ec : editor_config) (lines : List (List Char)) : editor_config :=
  let ec1 := lines.foldl (fun e line => editor_insert_row e (e.row.length : Int) line) ec
  { ec1 with dirty := 0 }

/-- `editor_save` with the three external I/O outcomes (`open`,
`ftruncate`, `write`) as oracles: `dirty` is cleared exactly on the fully
successful path, every failure path leaves it untouched. -/
def editor_save (ec : editor_config) (fd_ok ftruncate_ok write_ok : Bool) :
    editor_config :=
  if fd_ok && ftruncate_ok && write_ok then { ec with dirty := 0 } else ec

/-- `editor_rows2str`: every row's raw content followed by a newline. -/
def editor_rows2str (ec : editor_config) : List Char :=
  ec.row.foldr (fun r acc => r.c ++ '\n' :: acc) []

-- ======================================================================= --
--  Cursor movement (editor_move_cursor)
-- ======================================================================= --

/-- The `editor_key` codes used by `editor_move_cursor`. -/
def ARROW_LEFT : Int := 1000
def ARROW_RIGHT : Int := 1001
def ARROW_UP : Int := 1002
def ARROW_DOWN : Int := 1003

/-- The `switch` of `editor_move_cursor`: the four directional moves (left
wraps to the end of the previous line, right wraps to the start of the
next; the `row == NULL` test is `cursor_y < num_rows`). -/
def moveCursorStep (ec : editor_config) (key : Int) : editor_config :=
  if key == ARROW_LEFT then
    if ec.cursor_x != 0 then { ec with cursor_x := ec.cursor_x - 1 }
    else if 0 < ec.cursor_y then
      { ec with cursor_y := ec.cursor_y - 1
                cursor_x := (ec.row.getD (ec.cursor_y - 1) default).c.length }
    else ec
  else if key == ARROW_RIGHT then
    if ec.cursor_y < ec.row.length then
      if ec.cursor_x < (ec.row.getD ec.cursor_y default).c.length then
        { ec with cursor_x := ec.cursor_x + 1 }
      else if ec.cursor_x == (ec.row.getD ec.cursor_y default).c.length then
        { ec with cursor_y := ec.cursor_y + 1, cursor_x := 0 }
      else ec
    else ec
  else if key == ARROW_UP then
    if ec.cursor_y != 0 then { ec with cursor_y := ec.cursor_y - 1 } else ec
  else if key == ARROW_DOWN then
    if ec.cursor_y < ec.row.length then { ec with cursor_y := ec.cursor_y + 1 } else ec
  else ec

/-- The landing row's raw length (0 when the cursor is on the phantom line
past the last row), used by the final snap of `editor_move_cursor`. -/
def landingRowLen (ec : editor_config) : Nat :=
  if ec.cursor_y < ec.row.length
  then (ec.row.getD ec.cursor_y default).c.length else 0

/-- `editor_move_cursor`: the directional move followed by the
unconditional snap of `cursor_x` to the landing row's length. -/
def editor_move_cursor (ec : editor_config) (key : Int) : editor_config :=
  let ec1 := moveCursorStep ec key
  if landingRowLen ec1 < ec1.cursor_x
  then { ec1 with cursor_x := landingRowLen ec1 } else ec1

-- ======================================================================= --
--  Search engine (editor_find_callback)
-- ======================================================================= --

/-- The static state of `editor_find_callback` (`last_match`, `direction`,
`saved_hl_line`, `saved_hl`). -/
structure find_state where
  last_match : Int
  direction : Int
  saved_hl_line : Nat
  saved_hl : Option (List Hl)
deriving DecidableEq, Repr, Inhabited

/-- Index of the first occurrence of `pat` in `hay` (C `strstr`, with the
haystack taken up to its Lean list length). -/
def strstrIdx : List Char → List Char → Option Nat
  | hay, pat =>
    if pat.isPrefixOf hay then some 0
    else
      match hay with
      | [] => none
      | _ :: t => (strstrIdx t pat).map (· + 1)

/-- Overwrite `n` entries of `l` starting at `off` with `v` (the `memset`
of the matched span with `HL_MATCH`). -/
def setRange (l : List Hl) (off n : Nat) (v : Hl) : List Hl :=
  l.take off ++ List.replicate n v ++ l.drop (off + n)

/-- The circular wrap of the scan cursor: `-1` becomes the last row,
`num_rows` becomes row 0, anything else is kept. -/
def wrapIdx (len : Nat) (c : Int) : Int :=
  if c == -1 then (len : Int) - 1 else if c == (len : Int) then 0 else c

/-- The scan loop of `editor_find_callback`: at most `num_rows` probes,
stepping `current` by `direction`, wrapping with `wrapIdx`; stop at the
first row whose render text contains the query. -/
def findLoop (rows : List erow) (query : List Char) (dir : Int) :
    Nat → Int → Option (Nat × Nat)
  | 0, _ => none
  | n + 1, current =>
    match strstrIdx
        (rows.getD (wrapIdx rows.length (current + dir)).toNat default).render
        query with
    | some off => some ((wrapIdx rows.length (current + dir)).toNat, off)
    | none => findLoop rows query dir n (wrapIdx rows.length (current + dir))

/-- `[s, s+1, ..., s+n-1]`, used to phrase the specification scan order. -/
def idxList : Nat → Nat → List Nat
  | _, 0 => []
  | s, n + 1 => s :: idxList (s + 1) n

/-- The `k`-th probe of the specification's scan order: the row at
position `(last_match + direction * (k + 1)) mod row_count`, paired with
the offset of the first occurrence of the query in its render text. -/
def findProbe (rows : List erow) (query : List Char) (last dir : Int)
    (k : Nat) : Option (Nat × Nat) :=
  (strstrIdx (rows.getD (((last + dir * ((k : Int) + 1)) %
      (rows.length : Int)).toNat) default).render query).map
    (fun off => ((((last + dir * ((k : Int) + 1)) %
      (rows.length : Int)).toNat), off))

/-- The scan as the spec words it: probe `row_count` candidate positions
`(last_match + direction * (k + 1)) mod row_count` for `k = 0, 1, ...` and
return the first hit together with the match offset. -/
def findSpec (rows : List erow) (query : List Char) (last dir : Int) :
    Option (Nat × Nat) :=
  (idxList 0 rows.length).findSome? (findProbe rows query last dir)

/-- The effects of a successful probe in `editor_find_callback`: move the
cursor to the match (mapping the render offset back to a raw column),
remember the row, snapshot its highlight array, and paint the matched span
`HL_MATCH`. -/
def editor_find_scan (ec : editor_config) (st : find_state)
    (query : List Char) : editor_config × find_state :=
  match findLoop ec.row query st.direction ec.row.length st.last_match with
  | none => (ec, st)
  | some (idx, off) =>
    let row := ec.row.getD idx default
    ({ ec with cursor_y := idx
               cursor_x := editor_row_rx2cx row off
               row := ec.row.set idx
                 { row with hl := setRange row.hl off query.length Hl.HL_MATCH } },
     { st with last_match := idx, saved_hl_line := idx, saved_hl := some row.hl })

/-- The key dispatch of `editor_find_callback` for non-terminating keys:
arrows choose the direction, anything else restarts from the top; a
`last_match` of `-1` forces the direction forward. -/
def find_dispatch (st : find_state) (key : Int) : find_state :=
  let st1 :=
    if key == ARROW_RIGHT || key == ARROW_DOWN then { st with direction := 1 }
    else if key == ARROW_LEFT || key == ARROW_UP then { st with direction := -1 }
    else { st with last_match := -1, direction := 1 }
  if st1.last_match == -1 then { st1 with direction := 1 } else st1

/-- One keystroke of `editor_find_callback`: restore the saved highlight
snapshot of the previously matched row (a `memcpy` of `rlen` bytes) and
drop it; on Enter or Escape reset the search state and stop; otherwise
dispatch the key and run the scan. -/
def editor_find_callback (ec : editor_config) (st : find_state)
    (query : List Char) (key : Int) : editor_config × find_state :=
  let p0 :=
    match st.saved_hl with
    | some s =>
      let line := st.saved_hl_line
      let row := ec.row.getD line default
      let rlen := row.render.length
      let row' := { row with hl := s.take rlen ++ row.hl.drop rlen }
      ({ ec with row := ec.row.set line row' },
       { st with saved_hl := (none : Option (List Hl)) })
    | none => (ec, st)
  if key == 13 || key == 27 then
    (p0.1, { p0.2 with last_match := -1, direction := 1 })
  else
    editor_find_scan p0.1 (find_dispatch p0.2 key) query

-- ======================================================================= --
--  Well-formedness and consistency predicates
-- ======================================================================= --

/-- Row invariant of the spec: the render form is at least as long as the
raw content, and the highlight array has exactly one entry per render
byte. -/
def rowWF (r : erow) : Prop :=
  r.c.length ≤ r.render.length ∧ r.hl.length = r.render.length

/-- Document invariant: every row satisfies `rowWF`. -/
def docWF (rows : List erow) : Prop :=
  ∀ i, i < rows.length → rowWF (rows.getD i default)

/-- Sanity condition on a syntax definition: no comment marker or keyword
contains a NUL byte (true of the one `HLDB` entry; a NUL inside a marker
could never match a NUL-terminated buffer anyway). -/
def esynOkB (s : esyn) : Bool :=
  !s.mcs.contains '\x00' && !s.mce.contains '\x00' &&
    s.keywords.all (fun kw => !kw.contains '\x00')

/-- `esynOkB` lifted to the optional syntax pointer. -/
def synOkB : Option esyn → Bool
  | none => true
  | some s => esynOkB s

/-- Row `i` of the document already carries exactly the highlight array and
trailing flag that classification would produce from its render text and
its predecessor's `hl_open_comment`. -/
def rowStableB (syn : Option esyn) (rows : List erow) (i : Nat) : Bool :=
  let row := rows.getD i default
  match syn with
  | none => row.hl == List.replicate row.render.length Hl.HL_NORMAL
  | some s =>
    let inc := decide (0 < i) && (rows.getD (i - 1) default).hl_open_comment
    classifyRow s row.render inc == (row.hl, row.hl_open_comment)

/-- Every row of the document is stable under re-classification. -/
def consistentB (syn : Option esyn) (rows : List erow) : Bool :=
  (idxList 0 rows.length).all (rowStableB syn rows)

-- ======================================================================= --
--  Concrete fixtures used by the witnesses
-- ======================================================================= --

/-- A one-line editor with raw text `"ab"` and no active syntax. -/
def wEcAB : editor_config :=
  { cursor_x := 0, cursor_y := 0,
    row := [{ c := "ab".toList, render := "ab".toList,
              hl := [Hl.HL_NORMAL, Hl.HL_NORMAL], hl_open_comment := false }],
    dirty := 0, syn := none }

/-- The one-line `"ab"` editor with the C syntax active. -/
def wEcC : editor_config :=
  { cursor_x := 0, cursor_y := 0,
    row := [{ c := "ab".toList, render := "ab".toList,
              hl := [Hl.HL_NORMAL, Hl.HL_NORMAL], hl_open_comment := false }],
    dirty := 0, syn := some C_SYN }

/-- Three-row document: only row 0 contains `"foo"` (as a substring). -/
def wEc3 : editor_config :=
  { cursor_x := 0, cursor_y := 0,
    row := [{ c := "xfoo".toList, render := "xfoo".toList,
              hl := [Hl.HL_NORMAL, Hl.HL_NORMAL, Hl.HL_NORMAL, Hl.HL_NORMAL],
              hl_open_comment := false },
            { c := "bar".toList, render := "bar".toList,
              hl := [Hl.HL_NORMAL, Hl.HL_NORMAL, Hl.HL_NORMAL],
              hl_open_comment := false },
            { c := "baz".toList, render := "baz".toList,
              hl := [Hl.HL_NORMAL, Hl.HL_NORMAL, Hl.HL_NORMAL],
              hl_open_comment := false }],
    dirty := 0, syn := none }

/-- Search state after a match on the last row, scanning forward. -/
def wSt3 : find_state :=
  { last_match := 2, direction := 1, saved_hl_line := 0, saved_hl := none }

/-- The initial static state of the search callback. -/
def wSt0 : find_state :=
  { last_match := -1, direction := 1, saved_hl_line := 0, saved_hl := none }

/-- A one-row stable document (raw text `"a"`). -/
def wRowA : List erow :=
  [{ c := "a".toList, render := "a".toList, hl := [Hl.HL_NORMAL],
     hl_open_comment := false }]

-- ======================================================================= --
--  Theorems
-- ======================================================================= --

-- ======================================================================= --
--  Lemmas about the coordinate mapper
-- ======================================================================= --

theorem rxStep_lt (rx : Nat) (c : Char) : rx < rxStep rx c := by
  unfold rxStep
  split
  · have h : rx % TAB_STOP < TAB_STOP := Nat.mod_lt _ (by decide)
    omega
  · omega

theorem foldl_rxStep_le (l : List Char) : ∀ cur : Nat, cur ≤ l.foldl rxStep cur := by
  induction l with
  | nil => intro cur; simp
  | cons c cs ih =>
    intro cur
    have h1 : cur < rxStep cur c := rxStep_lt cur c
    have h2 := ih (rxStep cur c)
    simp only [List.foldl_cons]
    omega

theorem rx2cxAux_foldl (cs : List Char) :
    ∀ (k acc cur : Nat), k ≤ cs.length →
      rx2cxAux cs cur ((cs.take k).foldl rxStep cur) acc = acc + k := by
  induction cs with
  | nil =>
    intro k acc cur hk
    simp at hk
    subst hk
    simp [rx2cxAux]
  | cons c cs ih =>
    intro k acc cur hk
    match k with
    | 0 =>
      simp only [List.take_zero, List.foldl_nil, rx2cxAux]
      have := rxStep_lt cur c
      simp [this]
    | k + 1 =>
      simp only [List.take_succ_cons, List.foldl_cons, rx2cxAux]
      have hle : rxStep cur c ≤ (cs.take k).foldl rxStep (rxStep cur c) :=
        foldl_rxStep_le _ _
      have hnot : ¬ ((cs.take k).foldl rxStep (rxStep cur c) < rxStep cur c) := by omega
      simp only [hnot, if_false]
      have hk' : k ≤ cs.length := by simpa using hk
      rw [ih k (acc + 1) (rxStep cur c) hk']
      omega

/-- C1: for every row and every valid raw index `cx ∈ [0, len]`, mapping the
character index to a render index with `editor_row_cx2rx` and back with
`editor_row_rx2cx` returns the original `cx`. -/
theorem cx2rx_rx2cx_roundtrip (row : erow) (cx : Nat) (h : cx ≤ row.c.length) :
    editor_row_rx2cx row (editor_row_cx2rx row cx) = cx := by
  unfold editor_row_rx2cx editor_row_cx2rx
  simpa using rx2cxAux_foldl row.c cx 0 0 h

/-- Witness for C1 on a concrete row containing a tab. -/
theorem cx2rx_rx2cx_roundtrip_witness :
    editor_row_rx2cx ⟨"a\tb".toList, [], [], false⟩
        (editor_row_cx2rx ⟨"a\tb".toList, [], [], false⟩ 2) = 2 :=
  cx2rx_rx2cx_roundtrip ⟨"a\tb".toList, [], [], false⟩ 2 (by decide)

-- Generic list access helpers -------------------------------------------- --

theorem getD_eq_getElem {α : Type} (l : List α) (i : Nat) (d : α)
    (h : i < l.length) : l.getD i d = l[i] := by
  rw [List.getD_eq_getElem?_getD, List.getElem?_eq_getElem h]
  rfl

theorem getD_set_self {α : Type} (l : List α) (i : Nat) (a d : α)
    (h : i < l.length) : (l.set i a).getD i d = a := by
  rw [getD_eq_getElem _ _ _ (by simpa using h)]
  exact List.getElem_set_self (by simpa using h)

theorem getD_set_ne {α : Type} (l : List α) (i j : Nat) (a d : α)
    (h : i ≠ j) : (l.set i a).getD j d = l.getD j d := by
  by_cases hj : j < l.length
  · rw [getD_eq_getElem _ _ _ (by simpa using hj), getD_eq_getElem _ _ _ hj]
    exact List.getElem_set_ne h _
  · rw [List.getD_eq_default _ _ (by simp; omega), List.getD_eq_default _ _ (by omega)]

theorem set_getD_self {α : Type} (l : List α) (i : Nat) (d : α)
    (h : i < l.length) : l.set i (l.getD i d) = l := by
  rw [getD_eq_getElem _ _ _ h]
  apply List.ext_getElem
  · simp
  · intro j h1 h2
    rw [List.getElem_set]
    split
    · subst j; rfl
    · rfl

theorem mem_idxList (n : Nat) : ∀ (s j : Nat), j ∈ idxList s n ↔ s ≤ j ∧ j < s + n := by
  induction n with
  | zero =>
    intro s j
    simp only [idxList, List.not_mem_nil, false_iff, not_and, Nat.add_zero]
    omega
  | succ n ih =>
    intro s j
    simp only [idxList, List.mem_cons, ih (s + 1) j]
    omega

-- C2: idempotence of editor_update_syntax -------------------------------- --

theorem updSynAux_not_changed (s : esyn) (n fuel : Nat) (rows : List erow)
    (i : Nat) (h : (synChanged s rows i && decide (i + 1 < n)) = false) :
    updSynAux s n fuel rows i = synRowUpdate s rows i := by
  cases fuel with
  | zero => rw [updSynAux]
  | succ fuel =>
    rw [updSynAux]
    simp [h]

theorem consistentB_stable (syn : Option esyn) (rows : List erow) (i : Nat)
    (hc : consistentB syn rows = true) (hi : i < rows.length) :
    rowStableB syn rows i = true := by
  have := List.all_eq_true.mp hc i ((mem_idxList rows.length 0 i).mpr (by omega))
  exact this

/-- C2: re-running `editor_update_syntax` on any row of a document whose
highlight arrays and `hl_open_comment` flags are already consistent with
their content and predecessors changes nothing — the recomputed highlight
array and trailing flag coincide with the stored ones, so `changed` is
false and the cascade to the following row is not entered. -/
theorem update_syn_idempotent (syn : Option esyn) (rows : List erow) (i : Nat)
    (hc : consistentB syn rows = true) (hi : i < rows.length) :
    editor_update_syn syn rows.length rows i = rows := by
  have hs := consistentB_stable syn rows i hc hi
  match syn with
  | none =>
    simp only [rowStableB, beq_iff_eq] at hs
    show synRowNormal rows i = rows
    unfold synRowNormal
    rw [← hs]
    exact set_getD_self rows i default hi
  | some s =>
    simp only [rowStableB, beq_iff_eq] at hs
    show updSynAux s rows.length rows.length rows i = rows
    have hch : synChanged s rows i = false := by
      unfold synChanged synInc
      rw [hs]
      simp
    rw [updSynAux_not_changed s _ _ rows i (by simp [hch])]
    simp only [synRowUpdate, synInc, hs]
    exact set_getD_self rows i default hi

/-- Witness for C2: a one-row C document carrying its own classification. -/
theorem update_syn_idempotent_witness :
    editor_update_syn (some C_SYN) wRowA.length wRowA 0 = wRowA :=
  update_syn_idempotent (some C_SYN) wRowA 0 (by decide) (by decide)

-- C4: keyword matching --------------------------------------------------- --

theorem strncmpEq_bound (kw : List Char) : ∀ (r : List Char) (i : Nat),
    kw ≠ [] → strncmpEq r i kw = true → '\x00' ∉ kw →
    i + kw.length ≤ r.length := by
  induction kw with
  | nil => intro r i hne; exact absurd rfl hne
  | cons k ks ih =>
    intro r i _ hs hnul
    simp only [strncmpEq, Bool.and_eq_true, beq_iff_eq] at hs
    have hk : k ≠ '\x00' := by
      intro h; exact hnul (by simp [h])
    have hi : i < r.length := by
      by_contra hle
      have : rGet r i = '\x00' := List.getD_eq_default _ _ (by omega)
      rw [hs.1] at this
      exact hk this
    match ks, hs.2 with
    | [], _ => simpa using hi
    | k' :: ks', h2 =>
      have := ih r (i + 1) (by simp) h2 (fun h => hnul (by simp [h]))
      simp only [List.length_cons] at this ⊢
      omega

theorem strncmpEq_eq_isPrefixOf (kw : List Char) :
    ∀ (r : List Char) (i : Nat), '\x00' ∉ kw →
    (strncmpEq r i kw = true ↔ kw.isPrefixOf (r.drop i) = true) := by
  induction kw with
  | nil => intro r i _; simp [strncmpEq, List.isPrefixOf]
  | cons k ks ih =>
    intro r i hnul
    have hk : k ≠ '\x00' := fun h => hnul (by simp [h])
    by_cases hi : i < r.length
    · rw [List.drop_eq_getElem_cons hi]
      simp only [strncmpEq, List.isPrefixOf, Bool.and_eq_true, beq_iff_eq]
      have hr : rGet r i = r[i] := getD_eq_getElem r i '\x00' hi
      rw [hr, ih r (i + 1) (fun h => hnul (by simp [h]))]
      constructor
      · rintro ⟨h1, h2⟩; exact ⟨h1.symm, h2⟩
      · rintro ⟨h1, h2⟩; exact ⟨h1.symm, h2⟩
    · rw [List.drop_eq_nil_of_le (by omega)]
      have hz : rGet r i = '\x00' := List.getD_eq_default _ _ (by omega)
      simp only [strncmpEq, hz, List.isPrefixOf, Bool.and_eq_true, beq_iff_eq,
        Bool.false_eq_true, iff_false, not_and]
      exact fun h => absurd h.symm hk

theorem kwScan_some (r : List Char) (i : Nat) :
    ∀ (kws : List (List Char)) (klen : Nat) (kw2 : Bool),
    kwScan r i kws = some (klen, kw2) →
    ∃ kw ∈ kws,
      (klen = (if kw.getLastD '\x00' == '|' then kw.dropLast else kw).length ∧
       strncmpEq r i (if kw.getLastD '\x00' == '|' then kw.dropLast else kw) = true ∧
       is_separator (rGet r (i + klen)) = true) := by
  intro kws
  induction kws with
  | nil => intro klen kw2 h; simp [kwScan] at h
  | cons kw rest ih =>
    intro klen kw2 h
    simp only [kwScan] at h
    by_cases hc : (strncmpEq r i (if kw.getLastD '\x00' == '|' then kw.dropLast else kw) &&
        is_separator (rGet r (i + (if kw.getLastD '\x00' == '|' then kw.dropLast else kw).length))) = true
    · rw [if_pos hc] at h
      have h' := h
      simp only [Option.some.injEq, Prod.mk.injEq] at h'
      refine ⟨kw, List.mem_cons_self kw rest, ?_⟩
      simp only [Bool.and_eq_true] at hc
      exact ⟨h'.1.symm, hc.1, h'.1 ▸ hc.2⟩
    · rw [if_neg hc] at h
      obtain ⟨kw', hmem, hrest⟩ := ih klen kw2 h
      exact ⟨kw', List.mem_cons_of_mem _ hmem, hrest⟩

/-- C4: a keyword entry matches only when its effective text (trailing bar
stripped) is an exact prefix of the remaining render text and the byte
right after the matched span is a separator — the NUL read at the end of
the row counts as one, covering "end of row".  In particular, on the
render text `"integer"` the C syntax classifies nothing as a keyword
(the prefix `"int"` is rejected because `'e'` is not a separator): every
byte stays `HL_NORMAL`. -/
theorem keyword_boundary :
    (∀ (r : List Char) (i : Nat) (kws : List (List Char)) (klen : Nat) (kw2 : Bool),
        (∀ kw ∈ kws, '\x00' ∉ kw) →
        kwScan r i kws = some (klen, kw2) →
        ∃ kw ∈ kws,
          (klen = (if kw.getLastD '\x00' == '|' then kw.dropLast else kw).length ∧
           (if kw.getLastD '\x00' == '|' then kw.dropLast else kw).isPrefixOf
             (r.drop i) = true ∧
           is_separator (rGet r (i + klen)) = true ∧
           ((if kw.getLastD '\x00' == '|' then kw.dropLast else kw) ≠ [] →
             i + klen ≤ r.length))) ∧
    classifyRow C_SYN "integer".toList false =
      (List.replicate 7 Hl.HL_NORMAL, false) := by
  constructor
  · intro r i kws klen kw2 hnul h
    obtain ⟨kw, hmem, hlen, hcmp, hsep⟩ := kwScan_some r i kws klen kw2 h
    have hnulkw : '\x00' ∉ kw := hnul kw hmem
    have hnuleff : '\x00' ∉ (if kw.getLastD '\x00' == '|' then kw.dropLast else kw) := by
      split
      · exact fun h => hnulkw (List.dropLast_subset kw h)
      · exact hnulkw
    refine ⟨kw, hmem, hlen, (strncmpEq_eq_isPrefixOf _ r i hnuleff).mp hcmp, hsep, ?_⟩
    intro hne
    have := strncmpEq_bound _ r i hne hcmp hnuleff
    omega
  · decide

/-- Witness for C4's general part: on the render text `"int "` the keyword
scan really does fire (for the secondary-class entry of length 3). -/
theorem keyword_boundary_witness :
    ∃ kw ∈ C_HL_KEY,
      (3 = (if kw.getLastD '\x00' == '|' then kw.dropLast else kw).length ∧
       (if kw.getLastD '\x00' == '|' then kw.dropLast else kw).isPrefixOf
         ("int ".toList.drop 0) = true ∧
       is_separator (rGet "int ".toList (0 + 3)) = true ∧
       ((if kw.getLastD '\x00' == '|' then kw.dropLast else kw) ≠ [] →
         0 + 3 ≤ "int ".toList.length)) :=
  keyword_boundary.1 "int ".toList 0 C_HL_KEY 3 true (by decide) (by decide)

-- Preservation of row count, raw content and render text by the cascade -- --

theorem synRowUpdate_length (s : esyn) (rows : List erow) (i : Nat) :
    (synRowUpdate s rows i).length = rows.length := by
  simp [synRowUpdate]

theorem synRowUpdate_getD_c (s : esyn) (rows : List erow) (i j : Nat) :
    ((synRowUpdate s rows i).getD j default).c = (rows.getD j default).c := by
  by_cases h : i = j
  · subst h
    by_cases hi : i < rows.length
    · rw [synRowUpdate, getD_set_self _ _ _ _ hi]
    · rw [synRowUpdate, List.set_eq_of_length_le (by omega)]
  · rw [synRowUpdate, getD_set_ne _ _ _ _ _ h]

theorem synRowUpdate_getD_render (s : esyn) (rows : List erow) (i j : Nat) :
    ((synRowUpdate s rows i).getD j default).render = (rows.getD j default).render := by
  by_cases h : i = j
  · subst h
    by_cases hi : i < rows.length
    · rw [synRowUpdate, getD_set_self _ _ _ _ hi]
    · rw [synRowUpdate, List.set_eq_of_length_le (by omega)]
  · rw [synRowUpdate, getD_set_ne _ _ _ _ _ h]

theorem updSynAux_length (s : esyn) (n : Nat) :
    ∀ (fuel : Nat) (rows : List erow) (i : Nat),
    (updSynAux s n fuel rows i).length = rows.length := by
  intro fuel
  induction fuel with
  | zero => intro rows i; rw [updSynAux]; exact synRowUpdate_length s rows i
  | succ fuel ih =>
    intro rows i
    rw [updSynAux]
    split
    · rw [ih]; exact synRowUpdate_length s rows i
    · exact synRowUpdate_length s rows i

theorem updSynAux_getD_c (s : esyn) (n : Nat) :
    ∀ (fuel : Nat) (rows : List erow) (i j : Nat),
    ((updSynAux s n fuel rows i).getD j default).c = (rows.getD j default).c := by
  intro fuel
  induction fuel with
  | zero => intro rows i j; rw [updSynAux]; exact synRowUpdate_getD_c s rows i j
  | succ fuel ih =>
    intro rows i j
    rw [updSynAux]
    split
    · rw [ih, synRowUpdate_getD_c]
    · exact synRowUpdate_getD_c s rows i j

theorem updSynAux_getD_render (s : esyn) (n : Nat) :
    ∀ (fuel : Nat) (rows : List erow) (i j : Nat),
    ((updSynAux s n fuel rows i).getD j default).render = (rows.getD j default).render := by
  intro fuel
  induction fuel with
  | zero => intro rows i j; rw [updSynAux]; exact synRowUpdate_getD_render s rows i j
  | succ fuel ih =>
    intro rows i j
    rw [updSynAux]
    split
    · rw [ih, synRowUpdate_getD_render]
    · exact synRowUpdate_getD_render s rows i j

theorem synRowNormal_length (rows : List erow) (i : Nat) :
    (synRowNormal rows i).length = rows.length := by
  simp [synRowNormal]

theorem synRowNormal_getD_c (rows : List erow) (i j : Nat) :
    ((synRowNormal rows i).getD j default).c = (rows.getD j default).c := by
  by_cases h : i = j
  · subst h
    by_cases hi : i < rows.length
    · rw [synRowNormal, getD_set_self _ _ _ _ hi]
    · rw [synRowNormal, List.set_eq_of_length_le (by omega)]
  · rw [synRowNormal, getD_set_ne _ _ _ _ _ h]

theorem update_syn_length (syn : Option esyn) (n : Nat) (rows : List erow)
    (i : Nat) : (editor_update_syn syn n rows i).length = rows.length := by
  match syn with
  | none => exact synRowNormal_length rows i
  | some s => exact updSynAux_length s n n rows i

theorem update_syn_getD_c (syn : Option esyn) (n : Nat) (rows : List erow)
    (i j : Nat) :
    ((editor_update_syn syn n rows i).getD j default).c = (rows.getD j default).c := by
  match syn with
  | none => exact synRowNormal_getD_c rows i j
  | some s => exact updSynAux_getD_c s n n rows i j

theorem update_row_length (syn : Option esyn) (n : Nat) (rows : List erow)
    (i : Nat) : (editor_update_row syn n rows i).length = rows.length := by
  unfold editor_update_row
  rw [update_syn_length]
  simp

theorem update_row_getD_c (syn : Option esyn) (n : Nat) (rows : List erow)
    (i j : Nat) :
    ((editor_update_row syn n rows i).getD j default).c = (rows.getD j default).c := by
  unfold editor_update_row
  rw [update_syn_getD_c]
  by_cases h : i = j
  · subst h
    by_cases hi : i < rows.length
    · rw [getD_set_self _ _ _ _ hi]
    · rw [List.set_eq_of_length_le (by omega)]
  · rw [getD_set_ne _ _ _ _ _ h]

-- C7: editor_row_insert_char --------------------------------------------- --

/-- C7 counterexample: for `at = -1` on the raw row `"ab"` the code inserts
at the END (`at` is replaced by `row->len`, giving `"abc"`), not at the
clamped offset 0 (`"cab"`) that the claim's clamping to `[0, row.len]`
prescribes. -/
theorem insert_char_clamp_counterexample :
    rowInsertCharRaw "ab".toList (-1) 'c' = "abc".toList ∧
    rowInsertCharRaw "ab".toList (-1) 'c' ≠
      rowInsertCharClampSpec "ab".toList (-1) 'c' := by
  constructor
  · decide
  · decide

/-- C7 (amended): `editor_row_insert_char` inserts `ch` at offset `at` when
`0 ≤ at ≤ row.len`, and at offset `row.len` (the end) for any out-of-range
`at`, negative values included; the resulting raw content is one longer
and every other character — and every other row's raw content — is
preserved in order. -/
theorem insert_char_clamped_to_end (ec : editor_config) (i : Nat) (at_ : Int)
    (ch : Char) (hi : i < ec.row.length) :
    ((editor_row_insert_char ec i at_ ch).row.getD i default).c =
      (ec.row.getD i default).c.take
          (if at_ < 0 || at_ > ((ec.row.getD i default).c.length : Int)
           then (ec.row.getD i default).c.length else at_.toNat) ++
        ch :: (ec.row.getD i default).c.drop
          (if at_ < 0 || at_ > ((ec.row.getD i default).c.length : Int)
           then (ec.row.getD i default).c.length else at_.toNat) ∧
    ((editor_row_insert_char ec i at_ ch).row.getD i default).c.length =
      (ec.row.getD i default).c.length + 1 ∧
    ∀ j, j ≠ i →
      ((editor_row_insert_char ec i at_ ch).row.getD j default).c =
        (ec.row.getD j default).c := by
  have hfirst :
      ((editor_row_insert_char ec i at_ ch).row.getD i default).c =
        rowInsertCharRaw (ec.row.getD i default).c at_ ch := by
    simp only [editor_row_insert_char]
    rw [update_row_getD_c, getD_set_self _ _ _ _ hi]
  have ha : (if at_ < 0 || at_ > ((ec.row.getD i default).c.length : Int)
             then (ec.row.getD i default).c.length else at_.toNat) ≤
            (ec.row.getD i default).c.length := by
    split
    · omega
    · rename_i h
      simp only [Bool.or_eq_true, decide_eq_true_eq, not_or] at h
      omega
  refine ⟨?_, ?_, ?_⟩
  · rw [hfirst]; rfl
  · rw [hfirst]
    show (rowInsertCharRaw (ec.row.getD i default).c at_ ch).length = _
    unfold rowInsertCharRaw
    simp only [List.length_append, List.length_take, List.length_cons,
      List.length_drop]
    omega
  · intro j hj
    simp only [editor_row_insert_char]
    rw [update_row_getD_c, getD_set_ne _ _ _ _ _ (fun h => hj h.symm)]

/-- Witness for C7's amended theorem: inserting with `at = -1` into the
one-line document `"ab"` appends at the end. -/
theorem insert_char_clamped_to_end_witness :
    ((editor_row_insert_char wEcAB 0 (-1) 'c').row.getD 0 default).c.length =
      (wEcAB.row.getD 0 default).c.length + 1 :=
  (insert_char_clamped_to_end wEcAB 0 (-1) 'c' (by decide)).2.1

-- C9: cursor bounds after editor_move_cursor ----------------------------- --

theorem moveCursorStep_row (ec : editor_config) (key : Int) :
    (moveCursorStep ec key).row = ec.row := by
  unfold moveCursorStep
  split_ifs <;> rfl

theorem moveCursorStep_y_le (ec : editor_config) (key : Int)
    (h : ec.cursor_y ≤ ec.row.length) :
    (moveCursorStep ec key).cursor_y ≤ ec.row.length := by
  unfold moveCursorStep
  split_ifs <;> simp_all <;> omega

/-- C9: starting from any state with `cursor_y ≤ num_rows`, a single
`editor_move_cursor` keeps `cursor_y` within `[0, num_rows]` and leaves
`cursor_x` at most the length of the landing row (0 on the phantom line
past the last row): the cursor never points past the end of the line it
lands on. -/
theorem move_cursor_bounds (ec : editor_config) (key : Int)
    (h : ec.cursor_y ≤ ec.row.length) :
    (editor_move_cursor ec key).cursor_y ≤ (editor_move_cursor ec key).row.length ∧
    (editor_move_cursor ec key).cursor_x ≤
      (if (editor_move_cursor ec key).cursor_y < (editor_move_cursor ec key).row.length
       then ((editor_move_cursor ec key).row.getD
         (editor_move_cursor ec key).cursor_y default).c.length
       else 0) := by
  have hrow : (moveCursorStep ec key).row = ec.row := moveCursorStep_row ec key
  have hy : (moveCursorStep ec key).cursor_y ≤ ec.row.length :=
    moveCursorStep_y_le ec key h
  unfold editor_move_cursor
  by_cases hc : landingRowLen (moveCursorStep ec key) < (moveCursorStep ec key).cursor_x
  · rw [if_pos hc]
    refine ⟨by simpa [hrow] using hy, ?_⟩
    simp only [landingRowLen]
    rw [hrow]
  · rw [if_neg hc]
    refine ⟨by simpa [hrow] using hy, ?_⟩
    simp only [landingRowLen] at hc
    rw [hrow] at hc
    rw [hrow]
    omega

/-- Witness for C9: moving right from the start of the one-line document. -/
theorem move_cursor_bounds_witness :
    (editor_move_cursor wEcAB ARROW_RIGHT).cursor_y ≤
      (editor_move_cursor wEcAB ARROW_RIGHT).row.length ∧
    (editor_move_cursor wEcAB ARROW_RIGHT).cursor_x ≤
      (if (editor_move_cursor wEcAB ARROW_RIGHT).cursor_y <
          (editor_move_cursor wEcAB ARROW_RIGHT).row.length
       then ((editor_move_cursor wEcAB ARROW_RIGHT).row.getD
         (editor_move_cursor wEcAB ARROW_RIGHT).cursor_y default).c.length
       else 0) :=
  move_cursor_bounds wEcAB ARROW_RIGHT (by decide)

-- C8: the dirty counter -------------------------------------------------- --

/-- C8: `dirty` is 0 right after loading; every content mutation on a valid
target (row insert/delete, char insert/delete, append, split) increments
it by exactly one (hence strictly increases it); a fully successful save
resets it to 0 and any failed save leaves it unchanged. -/
theorem dirty_counter_behavior (ec : editor_config) (lines : List (List Char))
    (at1 at2 at3 : Int) (i1 i2 : Nat) (ch : Char) (s : List Char)
    (b1 b2 b3 : Bool) :
    (editor_open ec lines).dirty = 0 ∧
    (0 ≤ at1 → at1 ≤ (ec.row.length : Int) →
      (editor_insert_row ec at1 s).dirty = ec.dirty + 1) ∧
    (0 ≤ at2 → at2 < (ec.row.length : Int) →
      (editor_del_row ec at2).dirty = ec.dirty + 1) ∧
    (editor_row_insert_char ec i1 at3 ch).dirty = ec.dirty + 1 ∧
    (0 ≤ at3 → at3 < ((ec.row.getD i2 default).c.length : Int) →
      (editor_row_del_char ec i2 at3).dirty = ec.dirty + 1) ∧
    (editor_row_append_str ec i1 s).dirty = ec.dirty + 1 ∧
    (ec.cursor_y ≤ ec.row.length → (ec.cursor_x ≠ 0 → ec.cursor_y < ec.row.length) →
      (editor_insert_newline ec).dirty = ec.dirty + 1) ∧
    (editor_save ec true true true).dirty = 0 ∧
    ((b1 && b2 && b3) = false → (editor_save ec b1 b2 b3).dirty = ec.dirty) := by
  refine ⟨?_, ?_, ?_, ?_, ?_, ?_, ?_, ?_, ?_⟩
  · simp [editor_open]
  · intro h1 h2
    unfold editor_insert_row
    rw [if_neg (by simp only [Bool.or_eq_true, decide_eq_true_eq, not_or]; omega)]
  · intro h1 h2
    unfold editor_del_row
    rw [if_neg (by simp only [Bool.or_eq_true, decide_eq_true_eq, not_or]; omega)]
  · rfl
  · intro h1 h2
    unfold editor_row_del_char
    rw [if_neg (by simp only [Bool.or_eq_true, decide_eq_true_eq, not_or]; omega)]
  · rfl
  · intro hy hxy
    unfold editor_insert_newline
    by_cases hx : (ec.cursor_x == 0) = true
    · rw [if_pos hx]
      show (editor_insert_row ec (ec.cursor_y : Int) []).dirty = ec.dirty + 1
      unfold editor_insert_row
      rw [if_neg (by simp only [Bool.or_eq_true, decide_eq_true_eq, not_or]; omega)]
    · rw [if_neg hx]
      have hlt : ec.cursor_y < ec.row.length := hxy (by simpa using hx)
      show (editor_insert_row ec ((ec.cursor_y : Int) + 1) _).dirty = ec.dirty + 1
      unfold editor_insert_row
      rw [if_neg (by simp only [Bool.or_eq_true, decide_eq_true_eq, not_or]; omega)]
  · rfl
  · intro h
    simp [editor_save, h]

/-- Witness for C8 on the one-line document. -/
theorem dirty_counter_behavior_witness :
    (editor_open wEcAB [['x']]).dirty = 0 ∧
    (editor_insert_row wEcAB 1 ['x']).dirty = wEcAB.dirty + 1 ∧
    (editor_del_row wEcAB 0).dirty = wEcAB.dirty + 1 ∧
    (editor_row_insert_char wEcAB 0 0 'z').dirty = wEcAB.dirty + 1 ∧
    (editor_row_del_char wEcAB 0 0).dirty = wEcAB.dirty + 1 ∧
    (editor_row_append_str wEcAB 0 ['x']).dirty = wEcAB.dirty + 1 ∧
    (editor_insert_newline wEcAB).dirty = wEcAB.dirty + 1 ∧
    (editor_save wEcAB true true true).dirty = 0 ∧
    (editor_save wEcAB true false true).dirty = wEcAB.dirty := by
  have h := dirty_counter_behavior wEcAB [['x']] 1 0 0 0 0 'z' ['x'] true false true
  exact ⟨h.1, h.2.1 (by decide) (by decide), h.2.2.1 (by decide) (by decide),
    h.2.2.2.1, h.2.2.2.2.1 (by decide) (by decide), h.2.2.2.2.2.1,
    h.2.2.2.2.2.2.1 (by decide) (fun _ => by decide), h.2.2.2.2.2.2.2.1,
    h.2.2.2.2.2.2.2.2 (by decide)⟩

-- insertAt / eraseAt index lemmas ---------------------------------------- --

theorem insertAt_length {α : Type} (x : α) :
    ∀ (l : List α) (n : Nat), (insertAt l n x).length = l.length + 1 := by
  intro l
  induction l with
  | nil => intro n; cases n <;> rfl
  | cons c t ih =>
    intro n
    cases n with
    | zero => rfl
    | succ n => simp [insertAt, ih]

theorem getD_insertAt_self {α : Type} (x d : α) :
    ∀ (l : List α) (n : Nat), n ≤ l.length → (insertAt l n x).getD n d = x := by
  intro l
  induction l with
  | nil =>
    intro n hn
    have : n = 0 := by simpa using hn
    subst this
    rfl
  | cons c t ih =>
    intro n hn
    cases n with
    | zero => rfl
    | succ n =>
      show (c :: insertAt t n x).getD (n + 1) d = x
      rw [List.getD_cons_succ]
      exact ih n (by simpa using hn)

theorem getD_insertAt_lt {α : Type} (x d : α) :
    ∀ (l : List α) (n j : Nat), j < n → n ≤ l.length →
    (insertAt l n x).getD j d = l.getD j d := by
  intro l
  induction l with
  | nil => intro n j hj hn; simp at hn; omega
  | cons c t ih =>
    intro n j hj hn
    cases n with
    | zero => omega
    | succ n =>
      show (c :: insertAt t n x).getD j d = (c :: t).getD j d
      cases j with
      | zero => rfl
      | succ j =>
        rw [List.getD_cons_succ, List.getD_cons_succ]
        exact ih n j (by omega) (by simpa using hn)

theorem getD_insertAt_gt {α : Type} (x d : α) :
    ∀ (l : List α) (n j : Nat), n < j →
    (insertAt l n x).getD j d = l.getD (j - 1) d := by
  intro l
  induction l with
  | nil =>
    intro n j hj
    have h1 : insertAt ([] : List α) n x = [x] := by cases n <;> rfl
    rw [h1]
    match j, hj with
    | j + 1, _ =>
      rw [List.getD_cons_succ]
      rfl
  | cons c t ih =>
    intro n j hj
    cases n with
    | zero =>
      match j, hj with
      | j + 1, _ =>
        show (x :: c :: t).getD (j + 1) d = (c :: t).getD j d
        rw [List.getD_cons_succ]
    | succ n =>
      match j, hj with
      | j + 1, _ =>
        show (c :: insertAt t n x).getD (j + 1) d = (c :: t).getD j d
        rw [List.getD_cons_succ, ih n j (by omega)]
        match j, (show n < j by omega) with
        | j + 1, _ =>
          rw [List.getD_cons_succ]
          simp

theorem eraseAt_length {α : Type} :
    ∀ (l : List α) (n : Nat), n < l.length →
    (eraseAt l n).length = l.length - 1 := by
  intro l
  induction l with
  | nil => intro n hn; simp at hn
  | cons c t ih =>
    intro n hn
    cases n with
    | zero => simp [eraseAt]
    | succ n =>
      show (c :: eraseAt t n).length = t.length
      have := ih n (by simpa using hn)
      simp only [List.length_cons, this]
      have hn' : n < t.length := by simpa using hn
      omega

theorem getD_eraseAt_lt {α : Type} (d : α) :
    ∀ (l : List α) (n j : Nat), j < n →
    (eraseAt l n).getD j d = l.getD j d := by
  intro l
  induction l with
  | nil => intro n j hj; rfl
  | cons c t ih =>
    intro n j hj
    cases n with
    | zero => omega
    | succ n =>
      cases j with
      | zero => rfl
      | succ j =>
        show (c :: eraseAt t n).getD (j + 1) d = (c :: t).getD (j + 1) d
        rw [List.getD_cons_succ, List.getD_cons_succ]
        exact ih n j (by omega)

theorem getD_eraseAt_ge {α : Type} (d : α) :
    ∀ (l : List α) (n j : Nat), n ≤ j →
    (eraseAt l n).getD j d = l.getD (j + 1) d := by
  intro l
  induction l with
  | nil => intro n j hj; rfl
  | cons c t ih =>
    intro n j hj
    cases n with
    | zero =>
      show t.getD j d = (c :: t).getD (j + 1) d
      rw [List.getD_cons_succ]
    | succ n =>
      match j, hj with
      | j + 1, _ =>
        show (c :: eraseAt t n).getD (j + 1) d = (c :: t).getD (j + 2) d
        rw [List.getD_cons_succ, List.getD_cons_succ]
        exact ih n j (by omega)

-- C10: editor_insert_char on the phantom line past the last row ---------- --

theorem rowInsertCharRaw_nil (a : Int) (ch : Char) :
    rowInsertCharRaw [] a ch = [ch] := by
  simp [rowInsertCharRaw]

/-- C10: with the cursor on the line one past the last row (including the
empty document), `editor_insert_char` first appends a fresh empty row and
then inserts into it: the row count grows by exactly one, the new last
row's raw content is the single inserted character, and `cursor_x`
advances by one. -/
theorem insert_char_at_bottom_row (ec : editor_config) (ch : Char)
    (h : ec.cursor_y = ec.row.length) :
    (editor_insert_char ec ch).row.length = ec.row.length + 1 ∧
    ((editor_insert_char ec ch).row.getD ec.row.length default).c = [ch] ∧
    (editor_insert_char ec ch).cursor_x = ec.cursor_x + 1 := by
  have hc : (ec.cursor_y == ec.row.length) = true := by simp [h]
  have hguard :
      ¬((((ec.row.length : Int) < 0 : Bool) ||
         ((ec.row.length : Int) > (ec.row.length : Int) : Bool)) = true) := by
    simp
  have hR : editor_insert_row ec (ec.row.length : Int) [] =
      { ec with
        row := editor_update_row ec.syn ec.row.length
          (insertAt ec.row (ec.row.length : Int).toNat
            { c := [], render := [], hl := [], hl_open_comment := false })
          (ec.row.length : Int).toNat
        dirty := ec.dirty + 1 } := by
    unfold editor_insert_row
    rw [if_neg hguard]
  have htoNat : ((ec.row.length : Int)).toNat = ec.row.length := by simp
  have hR1 : (editor_insert_row ec (ec.row.length : Int) []).row.length =
      ec.row.length + 1 := by
    rw [hR]
    show (editor_update_row _ _ _ _).length = _
    rw [update_row_length, htoNat, insertAt_length]
  have hR2 : ((editor_insert_row ec (ec.row.length : Int) []).row.getD
      ec.row.length default).c = [] := by
    rw [hR]
    show ((editor_update_row _ _ _ _).getD _ _).c = _
    rw [update_row_getD_c, htoNat, getD_insertAt_self _ _ _ _ (Nat.le_refl _)]
  have hR3 : (editor_insert_row ec (ec.row.length : Int) []).cursor_x =
      ec.cursor_x := by
    rw [hR]
  simp only [editor_insert_char, hc, if_true]
  refine ⟨?_, ?_, ?_⟩
  · show (editor_update_row _ _ _ _).length = _
    rw [update_row_length, List.length_set, hR1]
  · show ((editor_update_row _ _ _ _).getD _ _).c = _
    rw [update_row_getD_c, h, getD_set_self _ _ _ _ (by rw [hR1]; omega)]
    show rowInsertCharRaw ((editor_insert_row ec (ec.row.length : Int) []).row.getD
      ec.row.length default).c (ec.cursor_x : Int) ch = [ch]
    rw [hR2, rowInsertCharRaw_nil]
  · show (editor_row_insert_char _ _ _ ch).cursor_x + 1 = ec.cursor_x + 1
    show (editor_insert_row ec (ec.row.length : Int) []).cursor_x + 1 = _
    rw [hR3]

/-- Witness for C10: typing into the empty document. -/
theorem insert_char_at_bottom_row_witness :
    (editor_insert_char
        { cursor_x := 0, cursor_y := 0, row := [], dirty := 0, syn := none }
        'q').row.length = 0 + 1 ∧
    ((editor_insert_char
        { cursor_x := 0, cursor_y := 0, row := [], dirty := 0, syn := none }
        'q').row.getD 0 default).c = ['q'] ∧
    (editor_insert_char
        { cursor_x := 0, cursor_y := 0, row := [], dirty := 0, syn := none }
        'q').cursor_x = 0 + 1 :=
  insert_char_at_bottom_row
    { cursor_x := 0, cursor_y := 0, row := [], dirty := 0, syn := none } 'q' rfl

-- C3: the row length invariants ------------------------------------------ --

theorem esynOk_spec (s : esyn) (h : esynOkB s = true) :
    '\x00' ∉ s.mcs ∧ '\x00' ∉ s.mce ∧ ∀ kw ∈ s.keywords, '\x00' ∉ kw := by
  simp only [esynOkB, Bool.and_eq_true] at h
  refine ⟨by simpa using h.1.1, by simpa using h.1.2, fun kw hm => ?_⟩
  have := List.all_eq_true.mp h.2 kw hm
  simpa using this

theorem synScan_fst_length (s : esyn) (r : List Char) (hok : esynOkB s = true) :
    ∀ (fuel : Nat) (i : Nat) (ps : Bool) (istr : Option Char) (ic : Bool)
      (acc : List Hl), acc.length = i → i ≤ r.length →
    (synScan s r fuel i ps istr ic acc).1.length = r.length := by
  obtain ⟨hmcs, hmce, hkw⟩ := esynOk_spec s hok
  intro fuel
  induction fuel with
  | zero =>
    intro i ps istr ic acc hacc hi
    rw [synScan]
    simp only [List.length_append, List.length_reverse, List.length_replicate]
    omega
  | succ fuel ih =>
    intro i ps istr ic acc hacc hi
    rw [synScan]
    by_cases h0 : r.length ≤ i
    · rw [if_pos h0]
      simp only [List.length_append, List.length_reverse, List.length_replicate]
      omega
    · rw [if_neg h0]
      split_ifs with c1 c2 c2e c3 c4 c4e c5 c6 c7
      · simp only [List.length_append, List.length_reverse, List.length_replicate]
        omega
      · have hne : s.mce ≠ [] := by
          simp only [Bool.and_eq_true, bne_iff_ne, ne_eq] at c2
          intro h
          exact c2.1.1.2 (by simp [h])
        have hb := strncmpEq_bound s.mce r i hne c2e hmce
        exact ih _ _ _ _ _ (by simp only [List.length_append, List.length_replicate, List.length_cons, hacc] <;> omega) (by omega)
      · exact ih _ _ _ _ _ (by simp only [List.length_append, List.length_replicate, List.length_cons, hacc] <;> omega) (by omega)
      · have hne : s.mcs ≠ [] := by
          simp only [Bool.and_eq_true, bne_iff_ne, ne_eq] at c3
          intro h
          exact c3.1.1.1 (by simp [h])
        have hcmp : strncmpEq r i s.mcs = true := by
          simp only [Bool.and_eq_true] at c3
          exact c3.2
        have hb := strncmpEq_bound s.mcs r i hne hcmp hmcs
        exact ih _ _ _ _ _ (by simp only [List.length_append, List.length_replicate, List.length_cons, hacc] <;> omega) (by omega)
      · have hb : i + 1 < r.length := by
          simp only [Bool.and_eq_true, decide_eq_true_eq] at c4e
          exact c4e.2
        exact ih _ _ _ _ _ (by simp only [List.length_append, List.length_replicate, List.length_cons, hacc] <;> omega) (by omega)
      · exact ih _ _ _ _ _ (by simp only [List.length_append, List.length_replicate, List.length_cons, hacc] <;> omega) (by omega)
      · exact ih _ _ _ _ _ (by simp only [List.length_append, List.length_replicate, List.length_cons, hacc] <;> omega) (by omega)
      · exact ih _ _ _ _ _ (by simp only [List.length_append, List.length_replicate, List.length_cons, hacc] <;> omega) (by omega)
      · exact ih _ _ _ _ _ (by simp only [List.length_append, List.length_replicate, List.length_cons, hacc] <;> omega) (by omega)
      · split
        next klen kw2 heq =>
          obtain ⟨kw, hmem, hlen, hcmp, _⟩ :=
            kwScan_some r i s.keywords klen kw2 heq
          have hb : i + klen ≤ r.length := by
            by_cases hne : (if kw.getLastD '\x00' == '|' then kw.dropLast else kw) = []
            · rw [hlen, hne]
              simp
              omega
            · have hnul : '\x00' ∉
                  (if kw.getLastD '\x00' == '|' then kw.dropLast else kw) := by
                split
                · exact fun hmm => hkw kw hmem (List.dropLast_subset kw hmm)
                · exact hkw kw hmem
              have := strncmpEq_bound _ r i hne hcmp hnul
              omega
          exact ih _ _ _ _ _ (by simp only [List.length_append, List.length_replicate, List.length_cons, hacc] <;> omega) hb
        next heq =>
          exact ih _ _ _ _ _ (by simp only [List.length_append, List.length_replicate, List.length_cons, hacc] <;> omega) (by omega)
      · exact ih _ _ _ _ _ (by simp only [List.length_append, List.length_replicate, List.length_cons, hacc] <;> omega) (by omega)

/-- The highlight array produced by `classifyRow` has exactly one entry per
render byte. -/
theorem classifyRow_fst_length (s : esyn) (r : List Char) (ic : Bool)
    (hok : esynOkB s = true) :
    (classifyRow s r ic).1.length = r.length :=
  synScan_fst_length s r hok _ 0 true none ic [] rfl (by omega)

theorem renderAux_length : ∀ (raw : List Char) (idx : Nat),
    raw.length ≤ (renderAux raw idx).length := by
  intro raw
  induction raw with
  | nil => intro idx; simp [renderAux]
  | cons c cs ih =>
    intro idx
    rw [renderAux]
    split
    · simp only [List.length_append, List.length_replicate, List.length_cons]
      have h8 : idx % TAB_STOP < TAB_STOP := Nat.mod_lt _ (by decide)
      have := ih (idx + (TAB_STOP - idx % TAB_STOP))
      omega
    · simp only [List.length_cons]
      have := ih (idx + 1)
      omega

theorem renderOf_length (raw : List Char) : raw.length ≤ (render_of raw).length :=
  renderAux_length raw 0

theorem synRowUpdate_wf (s : esyn) (rows : List erow) (i : Nat)
    (hok : esynOkB s = true)
    (h1 : ∀ j, j < rows.length →
      (rows.getD j default).c.length ≤ (rows.getD j default).render.length)
    (h2 : ∀ j, j < rows.length → j ≠ i →
      (rows.getD j default).hl.length = (rows.getD j default).render.length) :
    docWF (synRowUpdate s rows i) := by
  intro j hj
  rw [synRowUpdate_length] at hj
  constructor
  · rw [synRowUpdate_getD_c, synRowUpdate_getD_render]
    exact h1 j hj
  · by_cases hij : j = i
    · subst hij
      rw [synRowUpdate, getD_set_self _ _ _ _ hj]
      exact classifyRow_fst_length s _ _ hok
    · rw [synRowUpdate, getD_set_ne _ _ _ _ _ (fun h => hij h.symm)]
      exact h2 j hj hij

theorem synRowUpdate_h1 (s : esyn) (rows : List erow) (i : Nat)
    (h1 : ∀ j, j < rows.length →
      (rows.getD j default).c.length ≤ (rows.getD j default).render.length) :
    ∀ j, j < (synRowUpdate s rows i).length →
      ((synRowUpdate s rows i).getD j default).c.length ≤
        ((synRowUpdate s rows i).getD j default).render.length := by
  intro j hj
  rw [synRowUpdate_length] at hj
  rw [synRowUpdate_getD_c, synRowUpdate_getD_render]
  exact h1 j hj

theorem updSynAux_wf (s : esyn) (n : Nat) (hok : esynOkB s = true) :
    ∀ (fuel : Nat) (rows : List erow) (i : Nat),
    (∀ j, j < rows.length →
      (rows.getD j default).c.length ≤ (rows.getD j default).render.length) →
    (∀ j, j < rows.length → j ≠ i →
      (rows.getD j default).hl.length = (rows.getD j default).render.length) →
    docWF (updSynAux s n fuel rows i) := by
  intro fuel
  induction fuel with
  | zero =>
    intro rows i h1 h2
    rw [updSynAux]
    exact synRowUpdate_wf s rows i hok h1 h2
  | succ fuel ih =>
    intro rows i h1 h2
    rw [updSynAux]
    split
    · apply ih (synRowUpdate s rows i) (i + 1) (synRowUpdate_h1 s rows i h1)
      intro j hj hji
      rw [synRowUpdate_length] at hj
      by_cases hij : j = i
      · subst hij
        rw [synRowUpdate, getD_set_self _ _ _ _ hj]
        exact classifyRow_fst_length s _ _ hok
      · rw [synRowUpdate, getD_set_ne _ _ _ _ _ (fun h => hij h.symm)]
        exact h2 j hj hij
    · exact synRowUpdate_wf s rows i hok h1 h2

theorem synRowNormal_wf (rows : List erow) (i : Nat)
    (h1 : ∀ j, j < rows.length →
      (rows.getD j default).c.length ≤ (rows.getD j default).render.length)
    (h2 : ∀ j, j < rows.length → j ≠ i →
      (rows.getD j default).hl.length = (rows.getD j default).render.length) :
    docWF (synRowNormal rows i) := by
  intro j hj
  rw [synRowNormal_length] at hj
  constructor
  · rw [synRowNormal_getD_c]
    by_cases hij : j = i
    · subst hij
      by_cases hi : j < rows.length
      · rw [synRowNormal, getD_set_self _ _ _ _ hi]
        exact h1 j hj
      · omega
    · rw [synRowNormal, getD_set_ne _ _ _ _ _ (fun h => hij h.symm)]
      exact h1 j hj
  · by_cases hij : j = i
    · subst hij
      rw [synRowNormal, getD_set_self _ _ _ _ hj]
      simp
    · rw [synRowNormal, getD_set_ne _ _ _ _ _ (fun h => hij h.symm)]
      exact h2 j hj hij

/-- Re-deriving a row (render rebuild plus re-classification) yields a
well-formed document as long as every other row already satisfies the
length invariants. -/
theorem update_row_wf (syn : Option esyn) (n : Nat) (rows : List erow)
    (i : Nat) (hok : synOkB syn = true)
    (h : ∀ j, j < rows.length → j ≠ i → rowWF (rows.getD j default)) :
    docWF (editor_update_row syn n rows i) := by
  unfold editor_update_row
  have h1 : ∀ j, j < (rows.set i
      { rows.getD i default with render := render_of (rows.getD i default).c }).length →
      (((rows.set i { rows.getD i default with render := render_of (rows.getD i default).c }).getD
        j default)).c.length ≤
      (((rows.set i { rows.getD i default with render := render_of (rows.getD i default).c }).getD
        j default)).render.length := by
    intro j hj
    rw [List.length_set] at hj
    by_cases hij : j = i
    · subst hij
      rw [getD_set_self _ _ _ _ hj]
      exact renderOf_length _
    · rw [getD_set_ne _ _ _ _ _ (fun hh => hij hh.symm)]
      exact (h j hj hij).1
  have h2 : ∀ j, j < (rows.set i
      { rows.getD i default with render := render_of (rows.getD i default).c }).length →
      j ≠ i →
      (((rows.set i { rows.getD i default with render := render_of (rows.getD i default).c }).getD
        j default)).hl.length =
      (((rows.set i { rows.getD i default with render := render_of (rows.getD i default).c }).getD
        j default)).render.length := by
    intro j hj hij
    rw [List.length_set] at hj
    rw [getD_set_ne _ _ _ _ _ (fun hh => hij hh.symm)]
    exact (h j hj hij).2
  match syn with
  | none => exact synRowNormal_wf _ i h1 h2
  | some s => exact updSynAux_wf s n (by simpa [synOkB] using hok) n _ i h1 h2

theorem insert_row_syn (ec : editor_config) (at_ : Int) (s : List Char) :
    (editor_insert_row ec at_ s).syn = ec.syn := by
  unfold editor_insert_row
  split <;> rfl

theorem insert_row_wf (ec : editor_config) (at_ : Int) (s : List Char)
    (hok : synOkB ec.syn = true) (hwf : docWF ec.row) :
    docWF (editor_insert_row ec at_ s).row := by
  unfold editor_insert_row
  split
  · exact hwf
  · next h =>
    have ha : at_.toNat ≤ ec.row.length := by
      simp only [Bool.or_eq_true, decide_eq_true_eq, not_or] at h
      omega
    apply update_row_wf _ _ _ _ hok
    intro j hj hji
    rw [insertAt_length] at hj
    by_cases hlt : j < at_.toNat
    · rw [getD_insertAt_lt _ _ _ _ _ hlt ha]
      exact hwf j (by omega)
    · have hgt : at_.toNat < j := by omega
      rw [getD_insertAt_gt _ _ _ _ _ hgt]
      exact hwf (j - 1) (by omega)

theorem del_row_wf (ec : editor_config) (at_ : Int)
    (hwf : docWF ec.row) : docWF (editor_del_row ec at_).row := by
  unfold editor_del_row
  split
  · exact hwf
  · next h =>
    have ha : at_.toNat < ec.row.length := by
      simp only [Bool.or_eq_true, decide_eq_true_eq, not_or] at h
      omega
    intro j hj
    rw [eraseAt_length _ _ ha] at hj
    by_cases hlt : j < at_.toNat
    · rw [getD_eraseAt_lt _ _ _ _ hlt]
      exact hwf j (by omega)
    · rw [getD_eraseAt_ge _ _ _ _ (by omega)]
      exact hwf (j + 1) (by omega)

theorem row_insert_char_wf (ec : editor_config) (i : Nat) (at_ : Int)
    (ch : Char) (hok : synOkB ec.syn = true) (hwf : docWF ec.row) :
    docWF (editor_row_insert_char ec i at_ ch).row := by
  unfold editor_row_insert_char
  apply update_row_wf _ _ _ _ hok
  intro j hj hji
  rw [List.length_set] at hj
  rw [getD_set_ne _ _ _ _ _ (fun h => hji h.symm)]
  exact hwf j hj

theorem row_del_char_wf (ec : editor_config) (i : Nat) (at_ : Int)
    (hok : synOkB ec.syn = true) (hwf : docWF ec.row) :
    docWF (editor_row_del_char ec i at_).row := by
  simp only [editor_row_del_char]
  split
  · exact hwf
  · apply update_row_wf _ _ _ _ hok
    intro j hj hji
    rw [List.length_set] at hj
    rw [getD_set_ne _ _ _ _ _ (fun h => hji h.symm)]
    exact hwf j hj

theorem row_append_str_wf (ec : editor_config) (i : Nat) (s : List Char)
    (hok : synOkB ec.syn = true) (hwf : docWF ec.row) :
    docWF (editor_row_append_str ec i s).row := by
  unfold editor_row_append_str
  apply update_row_wf _ _ _ _ hok
  intro j hj hji
  rw [List.length_set] at hj
  rw [getD_set_ne _ _ _ _ _ (fun h => hji h.symm)]
  exact hwf j hj

theorem insert_newline_wf (ec : editor_config)
    (hok : synOkB ec.syn = true) (hwf : docWF ec.row) :
    docWF (editor_insert_newline ec).row := by
  unfold editor_insert_newline
  split
  · exact insert_row_wf ec _ _ hok hwf
  · have hwf1 : docWF (editor_insert_row ec ((ec.cursor_y : Int) + 1)
        ((ec.row.getD ec.cursor_y default).c.drop ec.cursor_x)).row :=
      insert_row_wf ec _ _ hok hwf
    apply update_row_wf _ _ _ _ (by rw [insert_row_syn]; exact hok)
    intro j hj hji
    rw [List.length_set] at hj
    rw [getD_set_ne _ _ _ _ _ (fun h => hji h.symm)]
    exact hwf1 j hj

/-- C3: after `editor_insert_row`, `editor_del_row`,
`editor_row_insert_char`, `editor_row_del_char`, `editor_row_append_str`
or the newline split, every row of a well-formed document still satisfies
`len(render) ≥ len(raw)` and `len(highlight) = len(render)` (the active
syntax definition — `none` or the C entry — carries no NUL byte in its
markers or keywords, which `synOkB` records). -/
theorem mutations_preserve_row_wf (ec : editor_config) (at1 at2 at3 at4 : Int)
    (i : Nat) (ch : Char) (s : List Char)
    (hok : synOkB ec.syn = true) (hwf : docWF ec.row) :
    docWF (editor_insert_row ec at1 s).row ∧
    docWF (editor_del_row ec at2).row ∧
    docWF (editor_row_insert_char ec i at3 ch).row ∧
    docWF (editor_row_del_char ec i at4).row ∧
    docWF (editor_row_append_str ec i s).row ∧
    docWF (editor_insert_newline ec).row :=
  ⟨insert_row_wf ec at1 s hok hwf, del_row_wf ec at2 hwf,
   row_insert_char_wf ec i at3 ch hok hwf, row_del_char_wf ec i at4 hok hwf,
   row_append_str_wf ec i s hok hwf, insert_newline_wf ec hok hwf⟩

/-- Witness for C3 on a concrete one-line document carrying the C syntax. -/
theorem mutations_preserve_row_wf_witness :
    docWF (editor_insert_row wEcC 1 "\t9".toList).row ∧
    docWF (editor_del_row wEcC 0).row ∧
    docWF (editor_row_insert_char wEcC 0 7 '\t').row ∧
    docWF (editor_row_del_char wEcC 0 0).row ∧
    docWF (editor_row_append_str wEcC 0 "\t9".toList).row ∧
    docWF (editor_insert_newline wEcC).row :=
  mutations_preserve_row_wf wEcC 1 0 7 0 0 '\t'
    "\t9".toList (by decide)
    (by
      intro j hj
      have hj0 : j = 0 := by
        have h1 : wEcC.row.length = 1 := rfl
        omega
      subst hj0
      constructor
      · decide
      · decide)

-- C5: the search scan ----------------------------------------------------- --

theorem getD_mem {α : Type} (l : List α) (i : Nat) (d : α) (h : i < l.length) :
    l.getD i d ∈ l := by
  rw [getD_eq_getElem _ _ _ h]
  exact List.getElem_mem h

theorem wrapIdx_eq_emod (len : Nat) (c : Int) (hL : 0 < (len : Int))
    (h1 : -1 ≤ c) (h2 : c ≤ (len : Int)) : wrapIdx len c = c % (len : Int) := by
  unfold wrapIdx
  by_cases hc1 : c = -1
  · subst hc1
    rw [if_pos (by simp)]
    have he : (-1 : Int) = ((len : Int) - 1) + (len : Int) * (-1) := by ring
    rw [he, Int.add_mul_emod_self_left, Int.emod_eq_of_lt (by omega) (by omega)]
  · rw [if_neg (by simp [hc1])]
    by_cases hc2 : c = (len : Int)
    · subst hc2
      rw [if_pos (by simp), Int.emod_self]
    · rw [if_neg (by simp [hc2]), Int.emod_eq_of_lt (by omega) (by omega)]

theorem findLoop_aux (rows : List erow) (q : List Char) (last dir : Int)
    (hdir : dir = 1 ∨ dir = -1) (hL : 0 < (rows.length : Int)) :
    ∀ (m j : Nat) (c : Int), j + m = rows.length →
      -1 ≤ c + dir → c + dir ≤ (rows.length : Int) →
      (c + dir) % (rows.length : Int) =
        (last + dir * ((j : Int) + 1)) % (rows.length : Int) →
      findLoop rows q dir m c =
        (idxList j m).findSome? (findProbe rows q last dir) := by
  intro m
  induction m with
  | zero => intro j c _ _ _ _; rfl
  | succ m ih =>
    intro j c hjm hb1 hb2 hinv
    rw [findLoop]
    have hw : wrapIdx rows.length (c + dir) =
        (last + dir * ((j : Int) + 1)) % (rows.length : Int) := by
      rw [wrapIdx_eq_emod _ _ hL hb1 hb2]
      exact hinv
    rw [hw]
    rw [show idxList j (m + 1) = j :: idxList (j + 1) m from rfl,
        List.findSome?_cons]
    cases heq : strstrIdx (rows.getD
        (((last + dir * ((j : Int) + 1)) % (rows.length : Int)).toNat)
        default).render q with
    | some off =>
      have hp : findProbe rows q last dir j = some
          ((((last + dir * ((j : Int) + 1)) % (rows.length : Int)).toNat), off) := by
        unfold findProbe
        rw [heq]
        rfl
      rw [hp]
    | none =>
      have hp : findProbe rows q last dir j = none := by
        unfold findProbe
        rw [heq]
        rfl
      rw [hp]
      show findLoop rows q dir m
          ((last + dir * ((j : Int) + 1)) % (rows.length : Int)) =
        List.findSome? (findProbe rows q last dir) (idxList (j + 1) m)
      have hn0 : 0 ≤ (last + dir * ((j : Int) + 1)) % (rows.length : Int) :=
        Int.emod_nonneg _ (by omega)
      have hn1 : (last + dir * ((j : Int) + 1)) % (rows.length : Int) <
          (rows.length : Int) := Int.emod_lt_of_pos _ hL
      apply ih (j + 1)
      · omega
      · rcases hdir with h | h <;> omega
      · rcases hdir with h | h <;> omega
      · rw [Int.emod_add_emod]
        congr 1
        push_cast
        ring

theorem findSpec_none (rows : List erow) (q : List Char) (last dir : Int)
    (hq : ∀ r ∈ rows, strstrIdx r.render q = none) :
    findSpec rows q last dir = none := by
  unfold findSpec
  rw [List.findSome?_eq_none]
  intro k hk
  unfold findProbe
  by_cases hz : rows.length = 0
  · have := (mem_idxList rows.length 0 k).mp hk
    omega
  · have hL : 0 < (rows.length : Int) := by omega
    have hlt : (((last + dir * ((k : Int) + 1)) % (rows.length : Int)).toNat) <
        rows.length := by
      have := Int.emod_nonneg (last + dir * ((k : Int) + 1))
        (show (rows.length : Int) ≠ 0 by omega)
      have := Int.emod_lt_of_pos (last + dir * ((k : Int) + 1)) hL
      omega
    rw [hq _ (getD_mem _ _ _ hlt)]
    rfl

theorem findLoop_eq_findSpec (rows : List erow) (q : List Char)
    (last dir : Int)
    (hlast1 : -1 ≤ last) (hlast2 : last < (rows.length : Int))
    (hdir : dir = 1 ∨ dir = -1) (hneg : dir = -1 → 0 ≤ last) :
    findLoop rows q dir rows.length last = findSpec rows q last dir := by
  by_cases hz : rows.length = 0
  · rw [hz]
    unfold findSpec
    rw [hz]
    rfl
  · have hL : 0 < (rows.length : Int) := by omega
    unfold findSpec
    apply findLoop_aux rows q last dir hdir hL rows.length 0 last
    · omega
    · rcases hdir with h | h
      · omega
      · have := hneg h
        omega
    · rcases hdir with h | h
      · omega
      · have := hneg h
        omega
    · congr 1
      push_cast
      ring

theorem find_scan_unchanged (ec : editor_config) (st : find_state)
    (q : List Char)
    (hlast1 : -1 ≤ st.last_match)
    (hlast2 : st.last_match < (ec.row.length : Int))
    (hdir : st.direction = 1 ∨ st.direction = -1)
    (hneg : st.direction = -1 → 0 ≤ st.last_match)
    (hq : ∀ r ∈ ec.row, strstrIdx r.render q = none) :
    editor_find_scan ec st q = (ec, st) := by
  unfold editor_find_scan
  rw [findLoop_eq_findSpec ec.row q st.last_match st.direction hlast1 hlast2
        hdir hneg,
     findSpec_none _ _ _ _ hq]

/-- C5: on reachable search states (`last_match ∈ [-1, num_rows)`, backward
direction only after a real match) one scan step of `editor_find_callback`
equals the specification scan: it probes at most `row_count` positions
`(last_match + direction*(k+1)) mod row_count` in order — wrapping `-1` to
the last row and `row_count` to row 0 is exactly the circular wrap — and
stops at the first row whose render text contains the query; and when no
row contains the query, the editor state and search state are left
completely unchanged. -/
theorem find_scan_spec (ec : editor_config) (st : find_state) (q : List Char)
    (hlast1 : -1 ≤ st.last_match)
    (hlast2 : st.last_match < (ec.row.length : Int))
    (hdir : st.direction = 1 ∨ st.direction = -1)
    (hneg : st.direction = -1 → 0 ≤ st.last_match) :
    findLoop ec.row q st.direction ec.row.length st.last_match =
      findSpec ec.row q st.last_match st.direction ∧
    ((∀ r ∈ ec.row, strstrIdx r.render q = none) →
      editor_find_scan ec st q = (ec, st)) :=
  ⟨findLoop_eq_findSpec ec.row q st.last_match st.direction hlast1 hlast2
     hdir hneg,
   fun hq => find_scan_unchanged ec st q hlast1 hlast2 hdir hneg hq⟩

/-- Witness for C5: three rows, only row 0 contains `"foo"`, forward scan
from `last_match = 2` wraps past the end and finds row 0 (render offset 1). -/
theorem find_scan_spec_witness :
    findLoop wEc3.row "foo".toList 1 wEc3.row.length 2 =
      findSpec wEc3.row "foo".toList 2 1 ∧
    findSpec wEc3.row "foo".toList 2 1 = some (0, 1) :=
  ⟨(find_scan_spec wEc3 wSt3 "foo".toList (by decide) (by decide)
      (Or.inl rfl) (by decide)).1,
   by decide⟩

-- C6: search highlight restoration --------------------------------------- --

theorem strstrIdx_some_bound (pat : List Char) :
    ∀ (hay : List Char) (off : Nat), strstrIdx hay pat = some off →
    off + pat.length ≤ hay.length := by
  intro hay
  induction hay with
  | nil =>
    intro off h
    rw [strstrIdx] at h
    by_cases hp : pat.isPrefixOf ([] : List Char) = true
    · rw [if_pos hp] at h
      have : pat = [] := by
        cases pat with
        | nil => rfl
        | cons a l => simp [List.isPrefixOf] at hp
      cases h
      simp [this]
    · rw [if_neg hp] at h
      cases h
  | cons a t ih =>
    intro off h
    rw [strstrIdx] at h
    by_cases hp : pat.isPrefixOf (a :: t) = true
    · rw [if_pos hp] at h
      cases h
      have hpre := List.isPrefixOf_iff_prefix.mp hp
      have := hpre.length_le
      simpa using this
    · rw [if_neg hp] at h
      simp only [Option.map_eq_some'] at h
      obtain ⟨off', hoff', rfl⟩ := h
      have := ih off' hoff'
      simp only [List.length_cons]
      omega

theorem findLoop_some_strstr (rows : List erow) (q : List Char) (dir : Int) :
    ∀ (n : Nat) (c : Int) (idx off : Nat),
    findLoop rows q dir n c = some (idx, off) →
    strstrIdx (rows.getD idx default).render q = some off := by
  intro n
  induction n with
  | zero => intro c idx off h; cases h
  | succ n ih =>
    intro c idx off h
    rw [findLoop] at h
    cases heq : strstrIdx
        (rows.getD (wrapIdx rows.length (c + dir)).toNat default).render q with
    | some off' =>
      rw [heq] at h
      simp only [Option.some.injEq, Prod.mk.injEq] at h
      rw [← h.1, ← h.2]
      exact heq
    | none =>
      rw [heq] at h
      exact ih _ idx off h

theorem setRange_length (l : List Hl) (off n : Nat) (v : Hl)
    (h : off + n ≤ l.length) : (setRange l off n v).length = l.length := by
  unfold setRange
  simp only [List.length_append, List.length_take, List.length_replicate,
    List.length_drop]
  omega

theorem find_dispatch_cases (st : find_state) (key : Int) :
    ((find_dispatch st key).last_match = st.last_match ∨
     (find_dispatch st key).last_match = -1) ∧
    ((find_dispatch st key).direction = 1 ∨
     (find_dispatch st key).direction = -1) ∧
    ((find_dispatch st key).direction = -1 →
      (find_dispatch st key).last_match = st.last_match ∧
      (find_dispatch st key).last_match ≠ -1) := by
  unfold find_dispatch
  split_ifs <;> simp_all <;> split_ifs <;> simp_all
theorem callback_row_after_restore (ec : editor_config) (st : find_state)
    (q : List Char) (key : Int) (s : List Hl)
    (hs : st.saved_hl = some s)
    (hlast1 : -1 ≤ st.last_match)
    (hlast2 : st.last_match < (ec.row.length : Int))
    (hline : st.saved_hl_line < ec.row.length)
    (hq : ∀ r ∈ ec.row, strstrIdx r.render q = none) :
    (editor_find_callback ec st q key).1.row =
      ec.row.set st.saved_hl_line
        { ec.row.getD st.saved_hl_line default with
          hl := s.take (ec.row.getD st.saved_hl_line default).render.length ++
            (ec.row.getD st.saved_hl_line default).hl.drop
              (ec.row.getD st.saved_hl_line default).render.length } := by
  set row2 : erow := { ec.row.getD st.saved_hl_line default with
      hl := s.take (ec.row.getD st.saved_hl_line default).render.length ++
        (ec.row.getD st.saved_hl_line default).hl.drop
          (ec.row.getD st.saved_hl_line default).render.length } with hrow2
  have hq' : ∀ r ∈ ec.row.set st.saved_hl_line row2,
      strstrIdx r.render q = none := by
    intro r hr
    rcases List.mem_or_eq_of_mem_set hr with h | h
    · exact hq r h
    · subst h
      show strstrIdx (ec.row.getD st.saved_hl_line default).render q = none
      exact hq _ (getD_mem _ _ _ hline)
  unfold editor_find_callback
  rw [hs]
  by_cases hk : (key == 13 || key == 27) = true
  · simp only [hk, if_true]
  · simp only [hk, Bool.false_eq_true, if_false]
    have hd := find_dispatch_cases { st with saved_hl := none } key
    have hst0 : ({ st with saved_hl := none } : find_state).last_match =
        st.last_match := rfl
    rw [hst0] at hd
    set ec2 : editor_config :=
      { ec with row := ec.row.set st.saved_hl_line row2 } with hec2
    have hrows : ec2.row = ec.row.set st.saved_hl_line row2 := rfl
    have hlen : ec2.row.length = ec.row.length := by
      rw [hrows, List.length_set]
    have happ := find_scan_unchanged ec2
      (find_dispatch { st with saved_hl := none } key) q
      (by rcases hd.1 with h | h <;> rw [h] <;> omega)
      (by
        rw [hlen]
        rcases hd.1 with h | h <;> rw [h] <;> omega)
      hd.2.1
      (by
        intro hng
        have h3 := hd.2.2 hng
        rw [h3.1]
        omega)
      (by rw [hrows]; exact hq')
    rw [happ]

/-- C6: a search session that finds a match on row `idx` (snapshotting its
highlight array and painting the matched span `HL_MATCH`) and whose next
keystroke's scan finds no match leaves the document's rows exactly as they
were before the match: the matched row's highlight array is restored
byte-for-byte from the snapshot and no other row is modified. -/
theorem find_highlight_restore (ec : editor_config) (st : find_state)
    (q1 q2 : List Char) (key1 key2 : Int) (idx off : Nat)
    (hsaved : st.saved_hl = none)
    (hkey1 : (key1 == 13 || key1 == 27) = false)
    (hfound : findLoop ec.row q1 (find_dispatch st key1).direction
        ec.row.length (find_dispatch st key1).last_match = some (idx, off))
    (hidx : idx < ec.row.length)
    (hwf : (ec.row.getD idx default).hl.length =
      (ec.row.getD idx default).render.length)
    (hq2 : ∀ r ∈ ec.row, strstrIdx r.render q2 = none) :
    (editor_find_callback (editor_find_callback ec st q1 key1).1
      (editor_find_callback ec st q1 key1).2 q2 key2).1.row = ec.row := by
  have hstr : strstrIdx (ec.row.getD idx default).render q1 = some off :=
    findLoop_some_strstr ec.row q1 (find_dispatch st key1).direction
      ec.row.length (find_dispatch st key1).last_match idx off hfound
  have hbound : off + q1.length ≤ (ec.row.getD idx default).hl.length := by
    have := strstrIdx_some_bound q1 _ _ hstr
    omega
  set row1 : erow := { ec.row.getD idx default with
      hl := setRange (ec.row.getD idx default).hl off q1.length Hl.HL_MATCH }
    with hrow1
  have hcb1 : editor_find_callback ec st q1 key1 =
      ({ ec with cursor_y := idx
                 cursor_x := editor_row_rx2cx (ec.row.getD idx default) off
                 row := ec.row.set idx row1 },
       { find_dispatch st key1 with
          last_match := (idx : Int)
          saved_hl_line := idx
          saved_hl := some (ec.row.getD idx default).hl }) := by
    unfold editor_find_callback
    rw [hsaved, hkey1]
    simp only [Bool.false_eq_true, if_false]
    unfold editor_find_scan
    rw [hfound]
  have h5 := callback_row_after_restore
    ({ ec with cursor_y := idx
               cursor_x := editor_row_rx2cx (ec.row.getD idx default) off
               row := ec.row.set idx row1 })
    ({ find_dispatch st key1 with
        last_match := (idx : Int)
        saved_hl_line := idx
        saved_hl := some (ec.row.getD idx default).hl })
    q2 key2 ((ec.row.getD idx default).hl) rfl
    (by show (-1 : Int) ≤ (idx : Int); omega)
    (by
      show ((idx : Nat) : Int) < ((ec.row.set idx row1).length : Int)
      rw [List.length_set]
      omega)
    (by
      show idx < (ec.row.set idx row1).length
      rw [List.length_set]
      exact hidx)
    (by
      intro r hr
      rcases List.mem_or_eq_of_mem_set hr with h | h
      · exact hq2 r h
      · subst h
        show strstrIdx (ec.row.getD idx default).render q2 = none
        exact hq2 _ (getD_mem _ _ _ hidx))
  simp only [hcb1]
  rw [h5]
  show (ec.row.set idx row1).set idx
      { (ec.row.set idx row1).getD idx default with
        hl := ((ec.row.getD idx default).hl).take
            ((ec.row.set idx row1).getD idx default).render.length ++
          ((ec.row.set idx row1).getD idx default).hl.drop
            ((ec.row.set idx row1).getD idx default).render.length } = ec.row
  rw [getD_set_self _ _ _ _ hidx]
  simp only [hrow1]
  rw [List.take_of_length_le (Nat.le_of_eq hwf)]
  rw [List.drop_eq_nil_of_le (by rw [setRange_length _ _ _ _ hbound, hwf])]
  rw [List.append_nil]
  show (ec.row.set idx row1).set idx (ec.row.getD idx default) = ec.row
  rw [List.set_set]
  exact set_getD_self _ _ _ hidx

/-- Witness for C6: match `"a"` on the one-line document, then search for
`"z"` (no match) — the row list returns exactly to its original state. -/
theorem find_highlight_restore_witness :
    (editor_find_callback (editor_find_callback wEcAB wSt0 "a".toList 120).1
      (editor_find_callback wEcAB wSt0 "a".toList 120).2 "z".toList 122).1.row =
      wEcAB.row :=
  find_highlight_restore wEcAB wSt0 "a".toList "z".toList 120 122 0 0
    rfl (by decide) (by decide) (by decide) (by decide) (by decide)
